import Mathlib

/-!
Shallow embedding of the Retrospective trajectory-generation scripts:

* `LUT_1D_Cartesian.py` / `cartesian1Dtrajectory.py` — variable-density 1-D
  Cartesian k-space scheduling (Gaussian density, discretization balancer,
  zigzag assembly, Monte-Carlo filling estimate);
* `exLUT_3D_radialTrajectory.py` — golden-angle pseudo-radial generator and
  coverage analysis;
* `exLUT_3D_spiralTrajectory.py` — golden-angle pseudo-spiral generator,
  duplicate compaction, origin pruning and coverage analysis.

Real-valued quantities of the scripts (numpy float64) are modelled by exact
real arithmetic; integer vectors and index manipulations are modelled
exactly.  Unbounded `while` loops are modelled with an explicit fuel
argument together with lemmas showing the results are the loop's fixpoints
whenever the exit condition is reachable within the fuel.
-/

namespace Retrospective

/-- `np.round`: round half to even (banker's rounding), as used by
`np.round(...).astype(int)` in the scripts. -/
def npRound {α : Type} [LinearOrderedField α] [FloorRing α] (x : α) : ℤ :=
  if Int.fract x = 1 / 2 ∧ Even ⌊x⌋ then ⌊x⌋ else round x

section NpRound

variable {α : Type} [LinearOrderedField α] [FloorRing α]

theorem npRound_eq_floor_of_tie {x : α} (h : Int.fract x = 1 / 2) (he : Even ⌊x⌋) :
    npRound x = ⌊x⌋ := by
  simp [npRound, h, he]

theorem npRound_eq_round_of_not_tie {x : α} (h : ¬ Int.fract x = 1 / 2) :
    npRound x = round x := by
  unfold npRound
  rw [if_neg]
  intro hc
  exact h hc.1

theorem npRound_le_of_lt {x : α} {v : ℤ} (h : x < (v : α) + 1 / 2) : npRound x ≤ v := by
  unfold npRound
  split
  · rename_i hc
    have hx : x = (⌊x⌋ : α) + 1 / 2 := by
      have := Int.fract_add_floor x
      rw [hc.1] at this
      linarith [this]
    have : (⌊x⌋ : α) < (v : α) := by linarith
    exact_mod_cast le_of_lt (by exact_mod_cast this)
  · rw [round_eq]
    have : x + 1 / 2 < (v : α) + 1 := by linarith
    have h2 : ⌊x + 1 / 2⌋ < v + 1 := by
      apply Int.floor_lt.2
      push_cast
      linarith
    omega

theorem le_npRound_of_lt {x : α} {v : ℤ} (h : (v : α) - 1 / 2 < x) : v ≤ npRound x := by
  unfold npRound
  split
  · rename_i hc
    have hx : x = (⌊x⌋ : α) + 1 / 2 := by
      have := Int.fract_add_floor x
      rw [hc.1] at this
      linarith [this]
    have : (v : α) - 1 < (⌊x⌋ : α) := by linarith
    have : v - 1 < ⌊x⌋ := by exact_mod_cast this
    omega
  · rw [round_eq]
    apply Int.le_floor.2
    push_cast
    linarith

theorem npRound_eq_of_bounds {x : α} {v : ℤ} (h1 : (v : α) - 1 / 2 < x)
    (h2 : x < (v : α) + 1 / 2) : npRound x = v :=
  le_antisymm (npRound_le_of_lt h2) (le_npRound_of_lt h1)

theorem npRound_nonneg {x : α} (h : 0 ≤ x) : 0 ≤ npRound x := by
  have : ((0 : ℤ) : α) - 1 / 2 < x := by push_cast; linarith
  exact le_npRound_of_lt this

theorem sub_half_le_npRound (x : α) : x - 1 / 2 ≤ (npRound x : α) := by
  unfold npRound
  split
  · rename_i hc
    have hx : x = (⌊x⌋ : α) + 1 / 2 := by
      have := Int.fract_add_floor x
      rw [hc.1] at this
      linarith [this]
    linarith
  · have := abs_sub_round x
    have h2 : x - round x ≤ 1 / 2 := (abs_le.1 this).2
    linarith

theorem npRound_mono {x y : α} (h : x ≤ y) : npRound x ≤ npRound y := by
  rcases eq_or_lt_of_le h with heq | hlt
  · rw [heq]
  · apply npRound_le_of_lt
    have := sub_half_le_npRound y
    linarith

theorem npRound_le_zero_imp {x : α} (h : npRound x ≤ 0) : x ≤ 1 / 2 := by
  by_contra hc
  push_neg at hc
  have : (1 : ℤ) ≤ npRound x := le_npRound_of_lt (by push_cast; linarith)
  omega

end NpRound

/-! ### Discretization balancer (`LUT_1D_Cartesian.py` lines 48-67)

`incr` starts at `0.9` and is raised in steps of `0.001` until the rounded
density sums to more than the surplus `extraLines`; then entries equal to 1
are zeroed alternately from the front and the back until the sum matches
the surplus or no such entry remains. -/

/-- The scale factor after `m` increments: `0.9 + m * 0.001`. -/
def incrAt {α : Type} [LinearOrderedField α] (m : ℕ) : α :=
  9 / 10 + (m : α) / 1000

/-- `np.round(d * incr).astype(int)` for a density vector `d`. -/
def roundVec {α : Type} [LinearOrderedField α] [FloorRing α] (d : List α) (incr : α) :
    List ℤ :=
  d.map fun w => npRound (w * incr)

/-- `np.sum(np.round(d * incr).astype(int))`. -/
def sumRound {α : Type} [LinearOrderedField α] [FloorRing α] (d : List α) (incr : α) : ℤ :=
  (roundVec d incr).sum

/-- The scale-up loop `while np.sum(df) <= extraLines: incr += 0.001`,
returning the number of increments performed, starting from `m` with at
most `fuel` further iterations. -/
def scaleUpSteps {α : Type} [LinearOrderedField α] [FloorRing α] (d : List α) (E : ℤ) :
    ℕ → ℕ → ℕ
  | 0, m => m
  | fuel + 1, m => if sumRound d (incrAt m) ≤ E then scaleUpSteps d E fuel (m + 1) else m

section ScaleUp

variable {α : Type} [LinearOrderedField α] [FloorRing α]

theorem incrAt_mono {m k : ℕ} (h : m ≤ k) : (incrAt m : α) ≤ incrAt k := by
  unfold incrAt
  have : (m : α) ≤ (k : α) := by exact_mod_cast h
  have h1000 : (0 : α) < 1000 := by norm_num
  gcongr

theorem incrAt_pos (m : ℕ) : (0 : α) < incrAt m := by
  unfold incrAt
  positivity

theorem sumRound_mono {d : List α} (hd : ∀ w ∈ d, 0 ≤ w) {i j : α} (h : i ≤ j) :
    sumRound d i ≤ sumRound d j := by
  unfold sumRound roundVec
  apply List.sum_le_sum
  intro w hw
  exact npRound_mono (mul_le_mul_of_nonneg_left h (hd w hw))

theorem scaleUpSteps_ge (d : List α) (E : ℤ) (fuel m : ℕ) :
    m ≤ scaleUpSteps d E fuel m := by
  induction fuel generalizing m with
  | zero => simp [scaleUpSteps]
  | succ n ih =>
    unfold scaleUpSteps
    split
    · exact le_trans (Nat.le_succ m) (ih (m + 1))
    · exact le_refl m

theorem scaleUpSteps_not_before (d : List α) (E : ℤ) (fuel m : ℕ) :
    ∀ k, m ≤ k → k < scaleUpSteps d E fuel m → sumRound d (incrAt k) ≤ E := by
  induction fuel generalizing m with
  | zero =>
    intro k h1 h2
    simp [scaleUpSteps] at h2
    omega
  | succ n ih =>
    intro k h1 h2
    unfold scaleUpSteps at h2
    by_cases hc : sumRound d (incrAt m) ≤ E
    · rw [if_pos hc] at h2
      rcases Nat.eq_or_lt_of_le h1 with rfl | hlt
      · exact hc
      · exact ih (m + 1) k hlt h2
    · rw [if_neg hc] at h2
      omega

theorem scaleUpSteps_exit (d : List α) (E : ℤ) (fuel m : ℕ)
    (h : ∃ k, m ≤ k ∧ k ≤ m + fuel ∧ E < sumRound d (incrAt k)) :
    E < sumRound d (incrAt (scaleUpSteps d E fuel m)) := by
  induction fuel generalizing m with
  | zero =>
    obtain ⟨k, h1, h2, h3⟩ := h
    have : k = m := by omega
    subst this
    simpa [scaleUpSteps] using h3
  | succ n ih =>
    unfold scaleUpSteps
    by_cases hc : sumRound d (incrAt m) ≤ E
    · rw [if_pos hc]
      apply ih
      obtain ⟨k, h1, h2, h3⟩ := h
      refine ⟨k, ?_, by omega, h3⟩
      rcases Nat.eq_or_lt_of_le h1 with rfl | hlt
      · exact absurd hc (not_le.2 h3)
      · omega
    · rw [if_neg hc]
      exact not_le.1 hc

theorem scaleUpSteps_eq_of_first_crossing (d : List α) (E : ℤ) (fuel n : ℕ)
    (hd : ∀ w ∈ d, 0 ≤ w)
    (hn : E < sumRound d (incrAt n))
    (hprev : n = 0 ∨ sumRound d (incrAt (n - 1)) ≤ E)
    (hfuel : n ≤ fuel) :
    scaleUpSteps d E fuel 0 = n := by
  have hexit : E < sumRound d (incrAt (scaleUpSteps d E fuel 0)) :=
    scaleUpSteps_exit d E fuel 0 ⟨n, Nat.zero_le n, by omega, hn⟩
  have hbefore := scaleUpSteps_not_before d E fuel 0
  set r := scaleUpSteps d E fuel 0 with hr
  rcases lt_trichotomy r n with h | h | h
  · -- r < n: then sumRound at r ≤ E by monotonicity from step n-1, contradiction
    rcases hprev with rfl | hprev
    · omega
    · have : sumRound d (incrAt r) ≤ sumRound d (incrAt (n - 1)) :=
        sumRound_mono hd (incrAt_mono (by omega))
      omega
  · exact h
  · have := hbefore n (Nat.zero_le n) h
    omega

end ScaleUp

/-! ### Trimming loop (`LUT_1D_Cartesian.py` lines 56-65)

`while np.sum(df) > extraLines:` find positions where `df == 1`; break if
none; zero the first such position if `pm` else the last; toggle `pm`. -/

/-- Zero the first entry equal to 1 (`df[loc[0]] = 0`). -/
def zeroFirstOne : List ℤ → List ℤ
  | [] => []
  | x :: xs => if x = 1 then 0 :: xs else x :: zeroFirstOne xs

/-- Zero the last entry equal to 1 (`df[loc[-1]] = 0`). -/
def zeroLastOne (l : List ℤ) : List ℤ :=
  (zeroFirstOne l.reverse).reverse

/-- The trimming loop with explicit fuel. -/
def trimAux : ℕ → List ℤ → Bool → ℤ → List ℤ
  | 0, df, _, _ => df
  | fuel + 1, df, pm, E =>
    if E < df.sum then
      if (1 : ℤ) ∈ df then
        trimAux fuel (if pm then zeroFirstOne df else zeroLastOne df) (!pm) E
      else df
    else df

/-- The trimming loop of the balancer; the fuel `(sum - E)⁺` is sufficient
because every productive iteration lowers the sum by exactly one. -/
def trimRepeats (df : List ℤ) (E : ℤ) : List ℤ :=
  trimAux (df.sum - E).toNat df true E

section Trim

theorem zeroFirstOne_split {l : List ℤ} (h : (1 : ℤ) ∈ l) :
    ∃ l1 l2, l = l1 ++ 1 :: l2 ∧ zeroFirstOne l = l1 ++ 0 :: l2 := by
  induction l with
  | nil => cases h
  | cons x xs ih =>
    by_cases hx : x = 1
    · subst hx
      exact ⟨[], xs, rfl, by simp [zeroFirstOne]⟩
    · have hmem : (1 : ℤ) ∈ xs := by
        rcases List.mem_cons.1 h with h1 | h1
        · exact absurd h1.symm hx
        · exact h1
      obtain ⟨l1, l2, he, hz⟩ := ih hmem
      exact ⟨x :: l1, l2, by simp [he], by simp [zeroFirstOne, hx, hz]⟩

theorem zeroFirstOne_sum {l : List ℤ} (h : (1 : ℤ) ∈ l) :
    (zeroFirstOne l).sum = l.sum - 1 := by
  obtain ⟨l1, l2, he, hz⟩ := zeroFirstOne_split h
  rw [hz]
  conv_rhs => rw [he]
  simp
  ring

theorem zeroFirstOne_length (l : List ℤ) : (zeroFirstOne l).length = l.length := by
  induction l with
  | nil => rfl
  | cons x xs ih =>
    by_cases hx : x = 1 <;> simp [zeroFirstOne, hx, ih]

theorem zeroFirstOne_mem {l : List ℤ} {x : ℤ} (h : x ∈ zeroFirstOne l) :
    x = 0 ∨ x ∈ l := by
  induction l with
  | nil => cases h
  | cons y ys ih =>
    by_cases hy : y = 1
    · rw [zeroFirstOne, if_pos hy] at h
      rcases List.mem_cons.1 h with h1 | h1
      · exact Or.inl h1
      · exact Or.inr (List.mem_cons_of_mem y h1)
    · rw [zeroFirstOne, if_neg hy] at h
      rcases List.mem_cons.1 h with h1 | h1
      · exact Or.inr (h1 ▸ List.mem_cons_self y ys)
      · rcases ih h1 with h2 | h2
        · exact Or.inl h2
        · exact Or.inr (List.mem_cons_of_mem y h2)

theorem zeroFirstOne_filter_ge_two {l : List ℤ} (h : (1 : ℤ) ∈ l) :
    (zeroFirstOne l).filter (fun x => 2 ≤ x) = l.filter (fun x => 2 ≤ x) := by
  obtain ⟨l1, l2, he, hz⟩ := zeroFirstOne_split h
  rw [hz]
  conv_rhs => rw [he]
  simp [List.filter_append]

theorem zeroLastOne_sum {l : List ℤ} (h : (1 : ℤ) ∈ l) :
    (zeroLastOne l).sum = l.sum - 1 := by
  unfold zeroLastOne
  rw [List.sum_reverse, zeroFirstOne_sum (by simpa using h), List.sum_reverse]

theorem zeroLastOne_length (l : List ℤ) : (zeroLastOne l).length = l.length := by
  unfold zeroLastOne
  rw [List.length_reverse, zeroFirstOne_length, List.length_reverse]

theorem zeroLastOne_mem {l : List ℤ} {x : ℤ} (h : x ∈ zeroLastOne l) :
    x = 0 ∨ x ∈ l := by
  unfold zeroLastOne at h
  rcases zeroFirstOne_mem (List.mem_reverse.1 h) with h1 | h1
  · exact Or.inl h1
  · exact Or.inr (List.mem_reverse.1 h1)

theorem zeroLastOne_filter_ge_two_sum {l : List ℤ} (h : (1 : ℤ) ∈ l) :
    ((zeroLastOne l).filter (fun x => 2 ≤ x)).sum = (l.filter (fun x => 2 ≤ x)).sum := by
  unfold zeroLastOne
  rw [List.filter_reverse, List.sum_reverse,
    zeroFirstOne_filter_ge_two (by simpa using h), List.filter_reverse, List.sum_reverse]

/-- With no entry equal to 1 and all entries non-negative, the entries `≥ 2`
carry the whole sum. -/
theorem filter_ge_two_sum_of_no_one {l : List ℤ} (h0 : ∀ x ∈ l, 0 ≤ x)
    (h1 : (1 : ℤ) ∉ l) : (l.filter (fun x => 2 ≤ x)).sum = l.sum := by
  induction l with
  | nil => rfl
  | cons x xs ih =>
    have hx0 : 0 ≤ x := h0 x (List.mem_cons_self x xs)
    have hx1 : x ≠ 1 := fun hc => h1 (hc ▸ List.mem_cons_self x xs)
    have ihs := ih (fun y hy => h0 y (List.mem_cons_of_mem x hy))
      (fun hc => h1 (List.mem_cons_of_mem x hc))
    by_cases h2 : 2 ≤ x
    · simp [List.filter_cons, h2, ihs]
    · have hx : x = 0 := by omega
      simp [List.filter_cons, h2, ihs, hx]

theorem trimAux_stop {fuel : ℕ} {df : List ℤ} {pm : Bool} {E : ℤ}
    (h : ¬ E < df.sum ∨ (1 : ℤ) ∉ df) : trimAux fuel df pm E = df := by
  cases fuel with
  | zero => rfl
  | succ n =>
    unfold trimAux
    rcases h with h | h
    · rw [if_neg h]
    · by_cases hc : E < df.sum
      · rw [if_pos hc, if_neg h]
      · rw [if_neg hc]

/-- Extra fuel beyond `(sum - E)⁺` never changes the trimming result: the
loop performs at most `sum − E` productive iterations. -/
theorem trimAux_fuel_irrelevant (E : ℤ) :
    ∀ fuel df pm, (df.sum - E).toNat ≤ fuel →
      trimAux fuel df pm E = trimAux (df.sum - E).toNat df pm E := by
  intro fuel
  induction fuel with
  | zero =>
    intro df pm h
    have : (df.sum - E).toNat = 0 := by omega
    rw [this]
  | succ n ih =>
    intro df pm h
    by_cases hc : E < df.sum
    · by_cases h1 : (1 : ℤ) ∈ df
      · obtain ⟨t, ht⟩ : ∃ t, (df.sum - E).toNat = t + 1 := by
          have : 1 ≤ (df.sum - E).toNat := by omega
          exact ⟨(df.sum - E).toNat - 1, by omega⟩
        set df2 := if pm then zeroFirstOne df else zeroLastOne df with hdf2
        have hsum2 : df2.sum = df.sum - 1 := by
          rw [hdf2]
          by_cases hpm : pm = true
          · rw [if_pos hpm]
            exact zeroFirstOne_sum h1
          · rw [if_neg hpm]
            exact zeroLastOne_sum h1
        have ht2 : (df2.sum - E).toNat = t := by omega
        rw [ht]
        show trimAux (n + 1) df pm E = trimAux (t + 1) df pm E
        unfold trimAux
        rw [if_pos hc, if_pos hc, if_pos h1, if_pos h1]
        rw [← hdf2]
        rw [ih df2 (!pm) (by omega), ht2]
      · rw [trimAux_stop (Or.inr h1), trimAux_stop (Or.inr h1)]
    · rw [trimAux_stop (Or.inl hc), trimAux_stop (Or.inl hc)]

/-- Main invariants of the trimming loop: non-negativity and length are
preserved, the sum never drops below the surplus, on the condition-exit the
sum equals the surplus, and the safety break can only fire when the
entries `≥ 2` already exceed the surplus. -/
theorem trimAux_spec (E : ℤ) :
    ∀ fuel df pm, (∀ x ∈ df, 0 ≤ x) → E ≤ df.sum → (df.sum - E).toNat ≤ fuel →
      (∀ x ∈ trimAux fuel df pm E, 0 ≤ x) ∧
      (trimAux fuel df pm E).length = df.length ∧
      E ≤ (trimAux fuel df pm E).sum ∧
      ((trimAux fuel df pm E).sum ≠ E → (1 : ℤ) ∉ trimAux fuel df pm E) ∧
      ((df.filter (fun x => 2 ≤ x)).sum ≤ E → (trimAux fuel df pm E).sum = E) := by
  intro fuel
  induction fuel with
  | zero =>
    intro df pm h0 hE hf
    have hsum : df.sum = E := by omega
    exact ⟨h0, rfl, le_of_eq hsum.symm, fun hc => absurd hsum hc, fun _ => hsum⟩
  | succ n ih =>
    intro df pm h0 hE hf
    by_cases hc : E < df.sum
    · by_cases h1 : (1 : ℤ) ∈ df
      · set df2 := if pm then zeroFirstOne df else zeroLastOne df with hdf2
        have hsum2 : df2.sum = df.sum - 1 := by
          rw [hdf2]
          by_cases hpm : pm = true
          · rw [if_pos hpm]; exact zeroFirstOne_sum h1
          · rw [if_neg hpm]; exact zeroLastOne_sum h1
        have hlen2 : df2.length = df.length := by
          rw [hdf2]
          by_cases hpm : pm = true
          · rw [if_pos hpm]; exact zeroFirstOne_length df
          · rw [if_neg hpm]; exact zeroLastOne_length df
        have h02 : ∀ x ∈ df2, 0 ≤ x := by
          intro x hx
          rw [hdf2] at hx
          by_cases hpm : pm = true
          · rw [if_pos hpm] at hx
            rcases zeroFirstOne_mem hx with h | h
            · omega
            · exact h0 x h
          · rw [if_neg hpm] at hx
            rcases zeroLastOne_mem hx with h | h
            · omega
            · exact h0 x h
        have hfil2 : (df2.filter (fun x => 2 ≤ x)).sum =
            (df.filter (fun x => 2 ≤ x)).sum := by
          rw [hdf2]
          by_cases hpm : pm = true
          · rw [if_pos hpm, zeroFirstOne_filter_ge_two h1]
          · rw [if_neg hpm]; exact zeroLastOne_filter_ge_two_sum h1
        have hstep : trimAux (n + 1) df pm E = trimAux n df2 (!pm) E := by
          conv_lhs => rw [trimAux]
          rw [if_pos hc, if_pos h1, ← hdf2]
        obtain ⟨c1, c2, c3, c4, c5⟩ :=
          ih df2 (!pm) h02 (by omega) (by omega)
        rw [hstep]
        exact ⟨c1, by rw [c2, hlen2], c3, c4, fun hS => c5 (by omega)⟩
      · rw [trimAux_stop (Or.inr h1)]
        refine ⟨h0, rfl, le_of_lt hc, fun _ => h1, fun hS => ?_⟩
        rw [filter_ge_two_sum_of_no_one h0 h1] at hS
        omega
    · rw [trimAux_stop (Or.inl hc)]
      have hsum : df.sum = E := by omega
      exact ⟨h0, rfl, le_of_eq hsum.symm, fun hx => absurd hsum hx, fun _ => hsum⟩

theorem trimRepeats_spec {df : List ℤ} {E : ℤ} (h0 : ∀ x ∈ df, 0 ≤ x)
    (hE : E ≤ df.sum) :
    (∀ x ∈ trimRepeats df E, 0 ≤ x) ∧
    (trimRepeats df E).length = df.length ∧
    E ≤ (trimRepeats df E).sum ∧
    ((trimRepeats df E).sum ≠ E → (1 : ℤ) ∉ trimRepeats df E) ∧
    ((df.filter (fun x => 2 ≤ x)).sum ≤ E → (trimRepeats df E).sum = E) :=
  trimAux_spec E (df.sum - E).toNat df true h0 hE (le_refl _)

end Trim

/-! ### Zigzag trajectory assembly (`LUT_1D_Cartesian.py` lines 70-78)

`for i in range(0, targetKspaceSize, 2): traj.extend([i + 1] * d[i])` then
`for i in range(targetKspaceSize - 1, 0, -2): traj.extend([i + 1] * d[i])`,
finally `traj - targetKspaceSize // 2 - 1`. -/

/-- The 0-based indices visited by `range(0, N, 2)`. -/
def upIndices (N : ℕ) : List ℕ :=
  (List.range ((N + 1) / 2)).map fun t => 2 * t

/-- The 0-based indices visited by `range(N - 1, 0, -2)`. -/
def downIndices (N : ℕ) : List ℕ :=
  (List.range (N / 2)).map fun t => N - 1 - 2 * t

/-- The zigzag sequence before re-centering; a Python `[k] * c` with a
non-positive `c` is the empty list, matching `Int.toNat`. -/
def trajRawOf (dInt : List ℤ) (N : ℕ) : List ℤ :=
  ((upIndices N ++ downIndices N).map fun i =>
    List.replicate (dInt.getD i 0).toNat ((i : ℤ) + 1)).join

/-- The re-centered zigzag trajectory `traj - N // 2 - 1`. -/
def trajOf (dInt : List ℤ) (N : ℕ) : List ℤ :=
  (trajRawOf dInt N).map fun t => t - ((N / 2 : ℕ) : ℤ) - 1

section Zigzag

theorem upIndices_lt {N i : ℕ} (h : i ∈ upIndices N) : i < N := by
  unfold upIndices at h
  obtain ⟨t, ht, rfl⟩ := List.mem_map.1 h
  have := List.mem_range.1 ht
  omega

theorem downIndices_lt {N i : ℕ} (h : i ∈ downIndices N) : i < N := by
  unfold downIndices at h
  obtain ⟨t, ht, rfl⟩ := List.mem_map.1 h
  have := List.mem_range.1 ht
  omega

theorem trajRawOf_mem {dInt : List ℤ} {N : ℕ} {t : ℤ} (h : t ∈ trajRawOf dInt N) :
    1 ≤ t ∧ t ≤ (N : ℤ) := by
  unfold trajRawOf at h
  rw [List.mem_join] at h
  obtain ⟨l, hl, hm⟩ := h
  rw [List.mem_map] at hl
  obtain ⟨i, hi, rfl⟩ := hl
  have hiN : i < N := by
    rcases List.mem_append.1 hi with h1 | h1
    · exact upIndices_lt h1
    · exact downIndices_lt h1
  have := List.eq_of_mem_replicate hm
  subst this
  constructor
  · omega
  · exact_mod_cast Nat.succ_le_of_lt hiN

theorem trajOf_mem {dInt : List ℤ} {N : ℕ} (hN : Even N) {t : ℤ}
    (h : t ∈ trajOf dInt N) : -((N : ℤ) / 2) ≤ t ∧ t ≤ (N : ℤ) / 2 - 1 := by
  unfold trajOf at h
  obtain ⟨u, hu, rfl⟩ := List.mem_map.1 h
  obtain ⟨h1, h2⟩ := trajRawOf_mem hu
  obtain ⟨M, hM⟩ := hN
  have hdiv : (N / 2 : ℕ) = M := by omega
  have hdiv2 : (N : ℤ) / 2 = (M : ℤ) := by omega
  rw [hdiv, hdiv2]
  omega

/-- The list sum of `w` over `range` split into even and odd positions. -/
theorem sum_range_even_odd (w : ℕ → ℕ) (M : ℕ) :
    ((List.range (2 * M)).map w).sum =
      ((List.range M).map fun t => w (2 * t) + w (2 * t + 1)).sum := by
  induction M with
  | zero => rfl
  | succ m ih =>
    have h2 : 2 * (m + 1) = 2 * m + 1 + 1 := by ring
    rw [h2, List.range_succ, List.range_succ, List.range_succ]
    simp only [List.map_append, List.sum_append, ih]
    simp
    omega


theorem downIndices_map_sum (w : ℕ → ℕ) (M : ℕ) :
    ((downIndices (2 * M)).map w).sum =
      ((List.range M).map fun t => w (2 * t + 1)).sum := by
  unfold downIndices
  have hM : 2 * M / 2 = M := by omega
  rw [hM, List.map_map]
  have hrev : (List.range M).map (fun t => w (2 * M - 1 - 2 * t)) =
      ((List.range M).map fun t => w (2 * t + 1)).reverse := by
    apply List.ext_getElem
    · simp
    · intro i h1 h2
      simp only [List.getElem_map, List.getElem_range, List.getElem_reverse,
        List.length_reverse, List.length_map, List.length_range] at h1 h2 ⊢
      have hi : i < M := by simpa using h1
      congr 1
      omega
  show ((List.range M).map (fun t => w (2 * M - 1 - 2 * t))).sum = _
  rw [hrev, List.sum_reverse]

theorem upIndices_map_sum (w : ℕ → ℕ) (M : ℕ) :
    ((upIndices (2 * M)).map w).sum = ((List.range M).map fun t => w (2 * t)).sum := by
  unfold upIndices
  rw [List.map_map]
  have : (2 * M + 1) / 2 = M := by omega
  rw [this]
  rfl

theorem map_add_sum (f g : ℕ → ℕ) (l : List ℕ) :
    (l.map fun t => f t + g t).sum = (l.map f).sum + (l.map g).sum := by
  induction l with
  | nil => rfl
  | cons x xs ih =>
    simp only [List.map_cons, List.sum_cons, ih]
    omega

/-- `[dInt.getD i for i in range N]` recovers `dInt` when the length is `N`. -/
theorem map_getD_range (l : List ℤ) :
    (List.range l.length).map (fun i => l.getD i 0) = l := by
  induction l with
  | nil => rfl
  | cons x xs ih =>
    have hcomp : ((fun i => (x :: xs).getD i 0) ∘ Nat.succ) = fun i => xs.getD i 0 := by
      funext i
      rfl
    rw [List.length_cons, List.range_succ_eq_map, List.map_cons, List.map_map, hcomp, ih]
    rfl

theorem sum_toNat_of_nonneg {l : List ℤ} (h : ∀ x ∈ l, 0 ≤ x) :
    ((l.map Int.toNat).sum : ℤ) = l.sum := by
  induction l with
  | nil => rfl
  | cons x xs ih =>
    have hx := h x (List.mem_cons_self x xs)
    have hxs := ih fun y hy => h y (List.mem_cons_of_mem x hy)
    simp only [List.map_cons, List.sum_cons, Nat.cast_add]
    rw [Int.toNat_of_nonneg hx, hxs]

/-- The assembled zigzag has one entry per unit of the repeat vector:
its length is the sum of the (non-negative) per-line counts. -/
theorem trajRawOf_length {dInt : List ℤ} {N : ℕ} (hlen : dInt.length = N)
    (hpos : ∀ x ∈ dInt, 0 ≤ x) (hN : Even N) :
    ((trajRawOf dInt N).length : ℤ) = dInt.sum := by
  obtain ⟨M, hM⟩ := hN
  have h2M : N = 2 * M := by omega
  subst h2M
  unfold trajRawOf
  rw [List.length_join, List.map_map]
  have hw : (List.length ∘ fun i => List.replicate (dInt.getD i 0).toNat ((i : ℤ) + 1)) =
      fun i => (dInt.getD i 0).toNat := by
    funext i
    simp
  rw [hw, List.map_append, List.sum_append, upIndices_map_sum, downIndices_map_sum,
    ← map_add_sum, ← sum_range_even_odd (fun i => (dInt.getD i 0).toNat) M]
  have : (List.range (2 * M)).map (fun i => (dInt.getD i 0).toNat) =
      dInt.map Int.toNat := by
    rw [← hlen]
    calc (List.range dInt.length).map (fun i => (dInt.getD i 0).toNat)
        = ((List.range dInt.length).map (fun i => dInt.getD i 0)).map Int.toNat := by
          simp [List.map_map, Function.comp_def]
      _ = dInt.map Int.toNat := by rw [map_getD_range]
  rw [this, sum_toNat_of_nonneg hpos]

theorem trajOf_length {dInt : List ℤ} {N : ℕ} (hlen : dInt.length = N)
    (hpos : ∀ x ∈ dInt, 0 ≤ x) (hN : Even N) :
    ((trajOf dInt N).length : ℤ) = dInt.sum := by
  unfold trajOf
  rw [List.length_map]
  exact trajRawOf_length hlen hpos hN

end Zigzag

/-! ### Gaussian density (`LUT_1D_Cartesian.py` lines 39-46)

`d = (1 / (sigma * sqrt(2 pi))) * exp(-((k - (kSpaceCenter + 1)) ** 2) /
(2 * sigma ** 2))` for `k = 1 .. targetKspaceSize`,
with `kSpaceCenter = targetKspaceSize // 2`. -/

/-- The Gaussian density vector `d`, indexed by `k = i + 1` for `i < N`. -/
noncomputable def gaussDensity (N σ : ℕ) : List ℝ :=
  (List.range N).map fun (i : ℕ) =>
    (1 / (σ * Real.sqrt (2 * Real.pi))) *
      Real.exp (-(((i : ℝ) + 1 - (((N / 2 : ℕ) : ℝ) + 1)) ^ 2) / (2 * (σ : ℝ) ^ 2))

section Gauss

theorem sqrt_two_pi_pos : 0 < Real.sqrt (2 * Real.pi) :=
  Real.sqrt_pos.2 (by positivity)

theorem gaussDensity_length (N σ : ℕ) : (gaussDensity N σ).length = N := by
  unfold gaussDensity
  rw [List.length_map, List.length_range]

theorem gaussDensity_pos {N σ : ℕ} (hσ : 0 < σ) : ∀ w ∈ gaussDensity N σ, 0 < w := by
  intro w hw
  obtain ⟨i, _, rfl⟩ := List.mem_map.1 hw
  have hσR : (0 : ℝ) < σ := by exact_mod_cast hσ
  have := sqrt_two_pi_pos
  have := Real.exp_pos (-(((i : ℝ) + 1 - (((N / 2 : ℕ) : ℝ) + 1)) ^ 2) / (2 * (σ : ℝ) ^ 2))
  positivity

theorem gaussDensity_nonneg {N σ : ℕ} (hσ : 0 < σ) : ∀ w ∈ gaussDensity N σ, 0 ≤ w :=
  fun w hw => le_of_lt (gaussDensity_pos hσ w hw)

/-- Every density value is at most the peak value `1 / (σ √(2π))`. -/
theorem gaussDensity_le_peak {N σ : ℕ} (hσ : 0 < σ) :
    ∀ w ∈ gaussDensity N σ, w ≤ 1 / (σ * Real.sqrt (2 * Real.pi)) := by
  intro w hw
  obtain ⟨i, _, rfl⟩ := List.mem_map.1 hw
  have hσR : (0 : ℝ) < σ := by exact_mod_cast hσ
  have hs := sqrt_two_pi_pos
  have hexp : Real.exp (-(((i : ℝ) + 1 - (((N / 2 : ℕ) : ℝ) + 1)) ^ 2) /
      (2 * (σ : ℝ) ^ 2)) ≤ 1 := by
    rw [Real.exp_le_one_iff]
    apply div_nonpos_of_nonpos_of_nonneg
    · simp [neg_nonpos]
      positivity
    · positivity
  calc 1 / (σ * Real.sqrt (2 * Real.pi)) *
        Real.exp (-(((i : ℝ) + 1 - (((N / 2 : ℕ) : ℝ) + 1)) ^ 2) / (2 * (σ : ℝ) ^ 2))
      ≤ 1 / (σ * Real.sqrt (2 * Real.pi)) * 1 := by
        apply mul_le_mul_of_nonneg_left hexp
        positivity
    _ = 1 / (σ * Real.sqrt (2 * Real.pi)) := mul_one _

end Gauss

/-! ### The composed Cartesian balancer and trajectory -/

/-- The discretized repeat-count vector `df` after the scale-up loop and the
trimming loop, for surplus `E = trajectoryLength - targetKspaceSize`. -/
noncomputable def dfOf (N σ : ℕ) (E : ℤ) (fuel : ℕ) : List ℤ :=
  trimRepeats
    (roundVec (gaussDensity N σ) (incrAt (scaleUpSteps (gaussDensity N σ) E fuel 0))) E

/-- `d = 1 + df` (`LUT_1D_Cartesian.py` line 67). -/
noncomputable def dIntOf (N σ : ℕ) (E : ℤ) (fuel : ℕ) : List ℤ :=
  (dfOf N σ E fuel).map fun x => 1 + x

/-- The full 1-D Cartesian zigzag trajectory of
`LUT_1D_Cartesian.py` for `targetKspaceSize = N`, `trajectoryLength = L`. -/
noncomputable def cartesianTraj (N L σ : ℕ) (fuel : ℕ) : List ℤ :=
  trajOf (dIntOf N σ ((L : ℤ) - N) fuel) N

section Pipeline

theorem roundVec_length {α : Type} [LinearOrderedField α] [FloorRing α]
    (d : List α) (incr : α) : (roundVec d incr).length = d.length := by
  unfold roundVec
  rw [List.length_map]

theorem roundVec_nonneg {α : Type} [LinearOrderedField α] [FloorRing α]
    {d : List α} (hd : ∀ w ∈ d, 0 ≤ w) {incr : α} (hi : 0 ≤ incr) :
    ∀ x ∈ roundVec d incr, 0 ≤ x := by
  intro x hx
  obtain ⟨w, hw, rfl⟩ := List.mem_map.1 hx
  exact npRound_nonneg (mul_nonneg (hd w hw) hi)

/-- Structural facts about the balancer output whenever the scale-up loop
can exit within the given fuel: the repeat vector has length `N`, is
non-negative, its sum is at least the surplus, and it is exactly the
surplus when the safety break does not fire. -/
theorem dfOf_spec {N σ : ℕ} {E : ℤ} {fuel : ℕ} (hσ : 0 < σ)
    (hex : ∃ m, m ≤ fuel ∧ E < sumRound (gaussDensity N σ) (incrAt m)) :
    (dfOf N σ E fuel).length = N ∧
    (∀ x ∈ dfOf N σ E fuel, 0 ≤ x) ∧
    E ≤ (dfOf N σ E fuel).sum ∧
    ((dfOf N σ E fuel).sum ≠ E → (1 : ℤ) ∉ dfOf N σ E fuel) ∧
    (((roundVec (gaussDensity N σ)
        (incrAt (scaleUpSteps (gaussDensity N σ) E fuel 0))).filter
          (fun x => 2 ≤ x)).sum ≤ E → (dfOf N σ E fuel).sum = E) := by
  obtain ⟨m, hm, hcross⟩ := hex
  have hd : ∀ w ∈ gaussDensity N σ, 0 ≤ w := gaussDensity_nonneg hσ
  have hexit : E < sumRound (gaussDensity N σ)
      (incrAt (scaleUpSteps (gaussDensity N σ) E fuel 0)) :=
    scaleUpSteps_exit _ E fuel 0 ⟨m, Nat.zero_le m, by omega, hcross⟩
  set v := roundVec (gaussDensity N σ)
    (incrAt (scaleUpSteps (gaussDensity N σ) E fuel 0)) with hv
  have hvnonneg : ∀ x ∈ v, 0 ≤ x :=
    roundVec_nonneg hd (le_of_lt (incrAt_pos _))
  have hvsum : E ≤ v.sum := le_of_lt hexit
  obtain ⟨c1, c2, c3, c4, c5⟩ := trimRepeats_spec hvnonneg hvsum
  refine ⟨?_, c1, c3, c4, c5⟩
  rw [dfOf, ← hv, c2, hv, roundVec_length, gaussDensity_length]

theorem dIntOf_length {N σ : ℕ} {E : ℤ} {fuel : ℕ} (hσ : 0 < σ)
    (hex : ∃ m, m ≤ fuel ∧ E < sumRound (gaussDensity N σ) (incrAt m)) :
    (dIntOf N σ E fuel).length = N := by
  unfold dIntOf
  rw [List.length_map]
  exact (dfOf_spec hσ hex).1

theorem dIntOf_nonneg {N σ : ℕ} {E : ℤ} {fuel : ℕ} (hσ : 0 < σ)
    (hex : ∃ m, m ≤ fuel ∧ E < sumRound (gaussDensity N σ) (incrAt m)) :
    ∀ x ∈ dIntOf N σ E fuel, 0 ≤ x := by
  intro x hx
  obtain ⟨y, hy, rfl⟩ := List.mem_map.1 hx
  have := (dfOf_spec hσ hex).2.1 y hy
  omega

theorem sum_map_one_add (l : List ℤ) :
    (l.map fun x => 1 + x).sum = l.length + l.sum := by
  induction l with
  | nil => rfl
  | cons x xs ih =>
    simp only [List.map_cons, List.sum_cons, List.length_cons, ih]
    push_cast
    ring

theorem dIntOf_sum {N σ : ℕ} {E : ℤ} {fuel : ℕ} (hσ : 0 < σ)
    (hex : ∃ m, m ≤ fuel ∧ E < sumRound (gaussDensity N σ) (incrAt m)) :
    (dIntOf N σ E fuel).sum = N + (dfOf N σ E fuel).sum := by
  unfold dIntOf
  rw [sum_map_one_add, (dfOf_spec hσ hex).1]

/-- The trajectory length equals `N` plus the balancer sum. -/
theorem cartesianTraj_length {N L σ fuel : ℕ} (hσ : 0 < σ) (hN : Even N)
    (hex : ∃ m, m ≤ fuel ∧
      ((L : ℤ) - N) < sumRound (gaussDensity N σ) (incrAt m)) :
    ((cartesianTraj N L σ fuel).length : ℤ) =
      (N : ℤ) + (dfOf N σ ((L : ℤ) - N) fuel).sum := by
  unfold cartesianTraj
  rw [trajOf_length (dIntOf_length hσ hex) (dIntOf_nonneg hσ hex) hN]
  exact dIntOf_sum hσ hex

/-- Every trajectory value lies in the signed k-line range. -/
theorem cartesianTraj_range {N L σ fuel : ℕ} (hN : Even N) :
    ∀ t ∈ cartesianTraj N L σ fuel, -((N : ℤ) / 2) ≤ t ∧ t ≤ (N : ℤ) / 2 - 1 :=
  fun _ ht => trajOf_mem hN ht

end Pipeline

/-! ### The balancer with zero surplus: the repeat vector is all zeros -/

section NoSurplus

theorem sqrt_two_pi_gt_five_halves : (5 / 2 : ℝ) < Real.sqrt (2 * Real.pi) := by
  have hpi : (3.14 : ℝ) < Real.pi := Real.pi_gt_d2
  have h1 : ((5 / 2 : ℝ)) ^ 2 < 2 * Real.pi := by nlinarith
  have h2 : Real.sqrt ((5 / 2 : ℝ) ^ 2) < Real.sqrt (2 * Real.pi) :=
    Real.sqrt_lt_sqrt (by positivity) h1
  rwa [Real.sqrt_sq (by norm_num : (0 : ℝ) ≤ 5 / 2)] at h2

theorem gaussDensity_le_fifth {N σ : ℕ} (hσ : 2 ≤ σ) :
    ∀ w ∈ gaussDensity N σ, w ≤ 1 / 5 := by
  intro w hw
  have hσ0 : 0 < σ := by omega
  have h1 := gaussDensity_le_peak hσ0 w hw
  have hs := sqrt_two_pi_gt_five_halves
  have hs0 := sqrt_two_pi_pos
  have hσR : (2 : ℝ) ≤ σ := by exact_mod_cast hσ
  have h5 : (5 : ℝ) ≤ σ * Real.sqrt (2 * Real.pi) := by nlinarith
  have h6 : 1 / (σ * Real.sqrt (2 * Real.pi)) ≤ 1 / 5 := by
    apply one_div_le_one_div_of_le
    · norm_num
    · exact h5
  linarith

theorem list_sum_nonpos {l : List ℤ} (h : ∀ x ∈ l, x ≤ 0) : l.sum ≤ 0 := by
  induction l with
  | nil => simp
  | cons x xs ih =>
    have := h x (List.mem_cons_self x xs)
    have := ih fun y hy => h y (List.mem_cons_of_mem x hy)
    simp only [List.sum_cons]
    omega

/-- At the zero-surplus exit step no rounded entry reaches 2: the entries
`≥ 2` of the exit profile form the empty list. -/
theorem exit_filter_ge_two_empty {N σ fuel : ℕ} (hσ : 2 ≤ σ)
    (hex : ∃ m, m ≤ fuel ∧ (0 : ℤ) < sumRound (gaussDensity N σ) (incrAt m)) :
    (roundVec (gaussDensity N σ)
      (incrAt (scaleUpSteps (gaussDensity N σ) 0 fuel 0))).filter
        (fun x => 2 ≤ x) = [] := by
  have hσ0 : 0 < σ := by omega
  have hnn : ∀ w ∈ gaussDensity N σ, 0 ≤ w := gaussDensity_nonneg hσ0
  have hfifth : ∀ w ∈ gaussDensity N σ, w ≤ 1 / 5 := gaussDensity_le_fifth hσ
  obtain ⟨m, hm, hcross⟩ := hex
  have hexit : (0 : ℤ) < sumRound (gaussDensity N σ)
      (incrAt (scaleUpSteps (gaussDensity N σ) 0 fuel 0)) :=
    scaleUpSteps_exit _ 0 fuel 0 ⟨m, Nat.zero_le m, by omega, hcross⟩
  have hbefore := scaleUpSteps_not_before (gaussDensity N σ) 0 fuel 0
  set r := scaleUpSteps (gaussDensity N σ) 0 fuel 0 with hr
  have hr1 : 1 ≤ r := by
    by_contra hc
    push_neg at hc
    have hr0 : r = 0 := by omega
    rw [hr0] at hexit
    have hle : sumRound (gaussDensity N σ) (incrAt 0) ≤ 0 := by
      apply list_sum_nonpos
      intro x hx
      obtain ⟨w, hw, rfl⟩ := List.mem_map.1 hx
      apply npRound_le_of_lt
      have hb := hfifth w hw
      have h9 : incrAt 0 = (9 / 10 : ℝ) := by norm_num [incrAt]
      have hnnw := hnn w hw
      rw [h9]
      push_cast
      nlinarith
    omega
  have hstep : ∀ w ∈ gaussDensity N σ, npRound (w * incrAt r) ≤ 1 := by
    intro w hw
    have hsum : sumRound (gaussDensity N σ) (incrAt (r - 1)) ≤ 0 :=
      hbefore (r - 1) (Nat.zero_le _) (by omega)
    have hmem : npRound (w * incrAt (r - 1)) ∈
        roundVec (gaussDensity N σ) (incrAt (r - 1)) :=
      List.mem_map_of_mem _ hw
    have hvnn : ∀ x ∈ roundVec (gaussDensity N σ) (incrAt (r - 1)), 0 ≤ x :=
      roundVec_nonneg hnn (le_of_lt (incrAt_pos _))
    have hle0 : npRound (w * incrAt (r - 1)) ≤ 0 := by
      have := List.single_le_sum hvnn _ hmem
      unfold sumRound at hsum
      omega
    have hwb : w * incrAt (r - 1) ≤ 1 / 2 := npRound_le_zero_imp hle0
    have hinc : (incrAt r : ℝ) = incrAt (r - 1) + 1 / 1000 := by
      have h1 : r = (r - 1) + 1 := by omega
      rw [h1]
      unfold incrAt
      push_cast
      ring
    have hfw := hfifth w hw
    have hnnw := hnn w hw
    have hub : w * incrAt r ≤ 1 / 2 + 1 / 5000 := by
      rw [hinc, mul_add]
      have : w * (1 / 1000) ≤ (1 / 5) * (1 / 1000) :=
        mul_le_mul_of_nonneg_right hfw (by norm_num)
      linarith
    apply npRound_le_of_lt
    push_cast
    linarith
  rw [List.filter_eq_nil_iff]
  intro a ha
  obtain ⟨w, hw, rfl⟩ := List.mem_map.1 ha
  have := hstep w hw
  simp only [decide_eq_true_eq]
  omega

/-- If the surplus is zero (`trajectoryLength = targetKspaceSize`), the
trimming loop empties the rounded vector completely: the repeat vector is
all zeros. -/
theorem dfOf_no_surplus {N σ fuel : ℕ} (hσ : 2 ≤ σ)
    (hex : ∃ m, m ≤ fuel ∧ (0 : ℤ) < sumRound (gaussDensity N σ) (incrAt m)) :
    dfOf N σ 0 fuel = List.replicate N 0 := by
  have hσ0 : 0 < σ := by omega
  have hnn : ∀ w ∈ gaussDensity N σ, 0 ≤ w := gaussDensity_nonneg hσ0
  have hfilter := exit_filter_ge_two_empty hσ hex
  obtain ⟨m, hm, hcross⟩ := hex
  have hexit : (0 : ℤ) < sumRound (gaussDensity N σ)
      (incrAt (scaleUpSteps (gaussDensity N σ) 0 fuel 0)) :=
    scaleUpSteps_exit _ 0 fuel 0 ⟨m, Nat.zero_le m, by omega, hcross⟩
  set r := scaleUpSteps (gaussDensity N σ) 0 fuel 0 with hr
  set v := roundVec (gaussDensity N σ) (incrAt r) with hv
  have hvnn : ∀ x ∈ v, 0 ≤ x := roundVec_nonneg hnn (le_of_lt (incrAt_pos _))
  obtain ⟨c1, c2, c3, c4, c5⟩ := trimRepeats_spec hvnn (le_of_lt hexit)
  have hsum0 : (trimRepeats v 0).sum = 0 := by
    apply c5
    rw [hv, hfilter]
    norm_num
  have hall : ∀ x ∈ trimRepeats v 0, x = 0 := by
    intro x hx
    have h1 := c1 x hx
    have h2 := List.single_le_sum c1 x hx
    omega
  have hlen : (trimRepeats v 0).length = N := by
    rw [c2, hv, roundVec_length, gaussDensity_length]
  have hdf : dfOf N σ 0 fuel = trimRepeats v 0 := by
    unfold dfOf
    rw [← hr, ← hv]
  rw [hdf]
  exact List.eq_replicate.2 ⟨hlen, hall⟩

theorem sqrt_two_pi_lt_251 : Real.sqrt (2 * Real.pi) < 2.51 := by
  have hpi : Real.pi < 3.15 := Real.pi_lt_d2
  have h1 : 2 * Real.pi < (2.51 : ℝ) ^ 2 := by nlinarith
  have h2 : Real.sqrt (2 * Real.pi) < Real.sqrt ((2.51 : ℝ) ^ 2) :=
    Real.sqrt_lt_sqrt (by positivity) h1
  rwa [Real.sqrt_sq (by norm_num : (0 : ℝ) ≤ 2.51)] at h2

theorem sumRound_pos_of_entry {d : List ℝ} (hd : ∀ w ∈ d, 0 ≤ w) {I : ℝ}
    (hI : 0 ≤ I) {w : ℝ} (hw : w ∈ d) (h1 : 1 ≤ npRound (w * I)) :
    (0 : ℤ) < sumRound d I := by
  have hmem : npRound (w * I) ∈ roundVec d I := List.mem_map_of_mem _ hw
  have := List.single_le_sum (roundVec_nonneg hd hI) _ hmem
  unfold sumRound
  omega

/-- At `σ = 2` the scale-up loop exits within 3000 steps for any target
size `N ≥ 4` (the center line rounds to 1 by then). -/
theorem gauss_exit_4_2 : ∃ m, m ≤ 3000 ∧
    (0 : ℤ) < sumRound (gaussDensity 4 2) (incrAt m) := by
  refine ⟨3000, le_refl _, ?_⟩
  have hs1 := sqrt_two_pi_gt_five_halves
  have hs2 := sqrt_two_pi_lt_251
  have hs0 := sqrt_two_pi_pos
  have hmem : ((1 : ℝ) / ((2 : ℕ) * Real.sqrt (2 * Real.pi))) *
      Real.exp (-((((2 : ℕ) : ℝ) + 1 - (((4 / 2 : ℕ) : ℝ) + 1)) ^ 2) /
        (2 * ((2 : ℕ) : ℝ) ^ 2)) ∈ gaussDensity 4 2 := by
    unfold gaussDensity
    exact List.mem_map_of_mem _ (by decide)
  have hval : ((1 : ℝ) / ((2 : ℕ) * Real.sqrt (2 * Real.pi))) *
      Real.exp (-((((2 : ℕ) : ℝ) + 1 - (((4 / 2 : ℕ) : ℝ) + 1)) ^ 2) /
        (2 * ((2 : ℕ) : ℝ) ^ 2)) = 1 / (2 * Real.sqrt (2 * Real.pi)) := by
    norm_num
  apply sumRound_pos_of_entry (gaussDensity_nonneg (by norm_num)) (le_of_lt (incrAt_pos _)) hmem
  rw [hval]
  have hI : (incrAt 3000 : ℝ) = 39 / 10 := by norm_num [incrAt]
  rw [hI]
  apply le_npRound_of_lt
  push_cast
  rw [div_mul_eq_mul_div, lt_div_iff (by positivity)]
  nlinarith

end NoSurplus

/-! ### The break configuration `targetKspaceSize = 4`, `trajectoryLength = 44`,
`sigma = 8`

At this valid parameter choice the scale-up loop exits at step 209657 with
rounded vector `[10, 10, 11, 10]` of sum 41; no entry equals 1, so the
trimming loop takes its safety break and the balancer returns sum 41
instead of the surplus 40. -/

section BreakConfig

theorem sqrt_two_pi_gt_d6 : (2.50662 : ℝ) < Real.sqrt (2 * Real.pi) := by
  have hpi : (3.141592 : ℝ) < Real.pi := Real.pi_gt_d6
  have h1 : ((2.50662 : ℝ)) ^ 2 < 2 * Real.pi := by nlinarith
  have h2 : Real.sqrt ((2.50662 : ℝ) ^ 2) < Real.sqrt (2 * Real.pi) :=
    Real.sqrt_lt_sqrt (by positivity) h1
  rwa [Real.sqrt_sq (by norm_num : (0 : ℝ) ≤ 2.50662)] at h2

theorem sqrt_two_pi_lt_d6 : Real.sqrt (2 * Real.pi) < 2.5066308 := by
  have hpi : Real.pi < 3.141593 := Real.pi_lt_d6
  have h1 : 2 * Real.pi < (2.5066308 : ℝ) ^ 2 := by nlinarith
  have h2 : Real.sqrt (2 * Real.pi) < Real.sqrt ((2.5066308 : ℝ) ^ 2) :=
    Real.sqrt_lt_sqrt (by positivity) h1
  rwa [Real.sqrt_sq (by norm_num : (0 : ℝ) ≤ 2.5066308)] at h2

theorem exp_neg_bounds {x : ℝ} (hx : 0 < x) :
    1 - x ≤ Real.exp (-x) ∧ Real.exp (-x) ≤ 1 / (1 + x) := by
  constructor
  · have := Real.add_one_le_exp (-x)
    linarith
  · have h1 := Real.add_one_le_exp x
    have h2 : (0 : ℝ) < 1 + x := by linarith
    rw [Real.exp_neg, inv_eq_one_div]
    exact one_div_le_one_div_of_le h2 (by linarith)

/-- The Gaussian density for `N = 4`, `σ = 8` as an explicit four-entry
list: exponents `-1/32`, `-1/128`, `0`, `-1/128` around the center `k = 3`. -/
theorem gaussDensity_4_8 : gaussDensity 4 8 =
    [1 / (8 * Real.sqrt (2 * Real.pi)) * Real.exp (-(1 / 32)),
     1 / (8 * Real.sqrt (2 * Real.pi)) * Real.exp (-(1 / 128)),
     1 / (8 * Real.sqrt (2 * Real.pi)),
     1 / (8 * Real.sqrt (2 * Real.pi)) * Real.exp (-(1 / 128))] := by
  unfold gaussDensity
  have h4 : List.range 4 = [0, 1, 2, 3] := by decide
  rw [h4]
  simp only [List.map_cons, List.map_nil]
  norm_num [Real.exp_zero]

/-- Determination of one balancer rounding from interval bounds on
`√(2π)` and on the exponential factor. -/
theorem npRound_gauss_entry {s E I eL eU : ℝ} {v : ℤ}
    (hs1 : (2.50662 : ℝ) < s) (hs2 : s < 2.5066308)
    (hE1 : eL ≤ E) (hE2 : E ≤ eU) (heL : 0 < eL) (hI : 0 < I)
    (hlo : (v : ℝ) - 1 / 2 < 1 / (8 * 2.5066308) * eL * I)
    (hhi : 1 / (8 * 2.50662) * eU * I < (v : ℝ) + 1 / 2) :
    npRound (1 / (8 * s) * E * I) = v := by
  have hs0 : (0 : ℝ) < s := by linarith
  have hP1 : (1 : ℝ) / (8 * s) ≤ 1 / (8 * 2.50662) :=
    one_div_le_one_div_of_le (by norm_num) (by linarith)
  have hP2 : (1 : ℝ) / (8 * 2.5066308) ≤ 1 / (8 * s) :=
    one_div_le_one_div_of_le (by positivity) (by linarith)
  have hEpos : 0 < E := lt_of_lt_of_le heL hE1
  apply npRound_eq_of_bounds
  · calc (v : ℝ) - 1 / 2 < 1 / (8 * 2.5066308) * eL * I := hlo
      _ ≤ 1 / (8 * s) * E * I := by
          apply mul_le_mul_of_nonneg_right _ (le_of_lt hI)
          exact mul_le_mul hP2 hE1 (le_of_lt heL) (by positivity)
  · calc 1 / (8 * s) * E * I ≤ 1 / (8 * 2.50662) * eU * I := by
          apply mul_le_mul_of_nonneg_right _ (le_of_lt hI)
          exact mul_le_mul hP1 hE2 (le_of_lt hEpos) (by norm_num)
      _ < (v : ℝ) + 1 / 2 := hhi

theorem roundVec_4_8_at_209657 :
    roundVec (gaussDensity 4 8) (incrAt 209657) = [10, 10, 11, 10] := by
  have hs1 := sqrt_two_pi_gt_d6
  have hs2 := sqrt_two_pi_lt_d6
  have he32 := exp_neg_bounds (show (0 : ℝ) < 1 / 32 by norm_num)
  have he128 := exp_neg_bounds (show (0 : ℝ) < 1 / 128 by norm_num)
  have hI : (incrAt 209657 : ℝ) = 210557 / 1000 := by
    unfold incrAt
    norm_num
  rw [gaussDensity_4_8]
  unfold roundVec
  simp only [List.map_cons, List.map_nil, hI]
  have h1 : npRound (1 / (8 * Real.sqrt (2 * Real.pi)) * Real.exp (-(1 / 32)) *
      (210557 / 1000 : ℝ)) = 10 :=
    npRound_gauss_entry hs1 hs2 he32.1 he32.2 (by norm_num) (by norm_num)
      (by norm_num) (by norm_num)
  have h2 : npRound (1 / (8 * Real.sqrt (2 * Real.pi)) * Real.exp (-(1 / 128)) *
      (210557 / 1000 : ℝ)) = 10 :=
    npRound_gauss_entry hs1 hs2 he128.1 he128.2 (by norm_num) (by norm_num)
      (by norm_num) (by norm_num)
  have h3 : npRound (1 / (8 * Real.sqrt (2 * Real.pi)) * (210557 / 1000 : ℝ)) = 11 := by
    have heq : 1 / (8 * Real.sqrt (2 * Real.pi)) * (210557 / 1000 : ℝ) =
        1 / (8 * Real.sqrt (2 * Real.pi)) * 1 * (210557 / 1000 : ℝ) := by ring
    rw [heq]
    exact npRound_gauss_entry hs1 hs2 (le_refl 1) (le_refl 1) (by norm_num)
      (by norm_num) (by norm_num) (by norm_num)
  rw [h1, h2, h3]

theorem roundVec_4_8_at_209656 :
    roundVec (gaussDensity 4 8) (incrAt 209656) = [10, 10, 10, 10] := by
  have hs1 := sqrt_two_pi_gt_d6
  have hs2 := sqrt_two_pi_lt_d6
  have he32 := exp_neg_bounds (show (0 : ℝ) < 1 / 32 by norm_num)
  have he128 := exp_neg_bounds (show (0 : ℝ) < 1 / 128 by norm_num)
  have hI : (incrAt 209656 : ℝ) = 210556 / 1000 := by
    unfold incrAt
    norm_num
  rw [gaussDensity_4_8]
  unfold roundVec
  simp only [List.map_cons, List.map_nil, hI]
  have h1 : npRound (1 / (8 * Real.sqrt (2 * Real.pi)) * Real.exp (-(1 / 32)) *
      (210556 / 1000 : ℝ)) = 10 :=
    npRound_gauss_entry hs1 hs2 he32.1 he32.2 (by norm_num) (by norm_num)
      (by norm_num) (by norm_num)
  have h2 : npRound (1 / (8 * Real.sqrt (2 * Real.pi)) * Real.exp (-(1 / 128)) *
      (210556 / 1000 : ℝ)) = 10 :=
    npRound_gauss_entry hs1 hs2 he128.1 he128.2 (by norm_num) (by norm_num)
      (by norm_num) (by norm_num)
  have h3 : npRound (1 / (8 * Real.sqrt (2 * Real.pi)) * (210556 / 1000 : ℝ)) = 10 := by
    have heq : 1 / (8 * Real.sqrt (2 * Real.pi)) * (210556 / 1000 : ℝ) =
        1 / (8 * Real.sqrt (2 * Real.pi)) * 1 * (210556 / 1000 : ℝ) := by ring
    rw [heq]
    exact npRound_gauss_entry hs1 hs2 (le_refl 1) (le_refl 1) (by norm_num)
      (by norm_num) (by norm_num) (by norm_num)
  rw [h1, h2, h3]

theorem scaleUp_4_8_40 : scaleUpSteps (gaussDensity 4 8) 40 300000 0 = 209657 := by
  apply scaleUpSteps_eq_of_first_crossing
  · exact gaussDensity_nonneg (by norm_num)
  · unfold sumRound
    rw [roundVec_4_8_at_209657]
    norm_num
  · right
    unfold sumRound
    rw [show (209657 : ℕ) - 1 = 209656 from rfl, roundVec_4_8_at_209656]
    norm_num
  · norm_num

theorem dfOf_4_8_40 : dfOf 4 8 40 300000 = [10, 10, 11, 10] := by
  unfold dfOf
  rw [scaleUp_4_8_40, roundVec_4_8_at_209657]
  decide

theorem dIntOf_4_8_40 : dIntOf 4 8 40 300000 = [11, 11, 12, 11] := by
  unfold dIntOf
  rw [dfOf_4_8_40]
  decide

theorem cartesianTraj_4_44_8 :
    cartesianTraj 4 44 8 300000 = trajOf [11, 11, 12, 11] 4 := by
  unfold cartesianTraj
  rw [show ((44 : ℕ) : ℤ) - ((4 : ℕ) : ℤ) = 40 by norm_num, dIntOf_4_8_40]

end BreakConfig

/-! ### Monte-Carlo filling estimator (`LUT_1D_Cartesian.py` lines 81-91)

For each drawn index `s`: `index = traj[s] + targetKspaceSize // 2`;
`if 0 <= index < targetKspaceSize: filling[index] += 1`; finally
`filling = filling / np.sum(filling)`. -/

/-- One update of the filling histogram, bumping the bucket
`index = traj[s] + N // 2` when it is in range. -/
def fillingStep (tr : List ℤ) (N : ℕ) (c : List ℕ) (s : ℕ) : List ℕ :=
  if 0 ≤ tr.getD s 0 + ((N / 2 : ℕ) : ℤ) ∧ tr.getD s 0 + ((N / 2 : ℕ) : ℤ) < (N : ℤ) then
    c.set (tr.getD s 0 + ((N / 2 : ℕ) : ℤ)).toNat
      (c.getD (tr.getD s 0 + ((N / 2 : ℕ) : ℤ)).toNat 0 + 1)
  else c

/-- The raw visit counts over all draws. -/
def fillingCounts (tr : List ℤ) (N : ℕ) (draws : List ℕ) : List ℕ :=
  draws.foldl (fillingStep tr N) (List.replicate N 0)

/-- The normalized filling histogram `filling / np.sum(filling)`. -/
def fillingOf (tr : List ℤ) (N : ℕ) (draws : List ℕ) : List ℚ :=
  (fillingCounts tr N draws).map fun (x : ℕ) =>
    (x : ℚ) / ((fillingCounts tr N draws).sum : ℚ)

section Filling

theorem sum_set_getD_add_one :
    ∀ (c : List ℕ) (i : ℕ), i < c.length →
      (c.set i (c.getD i 0 + 1)).sum = c.sum + 1 := by
  intro c
  induction c with
  | nil =>
    intro i hi
    simp at hi
  | cons x xs ih =>
    intro i hi
    cases i with
    | zero =>
      simp only [List.getD_cons_zero, List.set_cons_zero, List.sum_cons]
      omega
    | succ j =>
      have hj : j < xs.length := by simpa using hi
      simp only [List.getD_cons_succ, List.set]
      simp only [List.sum_cons, ih j hj]
      omega

theorem fillingStep_length (tr : List ℤ) (N : ℕ) (c : List ℕ) (s : ℕ) :
    (fillingStep tr N c s).length = c.length := by
  unfold fillingStep
  split
  · rw [List.length_set]
  · rfl

theorem fillingStep_sum (tr : List ℤ) (N : ℕ) (c : List ℕ) (s : ℕ)
    (hlen : c.length = N)
    (hin : 0 ≤ tr.getD s 0 + ((N / 2 : ℕ) : ℤ) ∧
      tr.getD s 0 + ((N / 2 : ℕ) : ℤ) < (N : ℤ)) :
    (fillingStep tr N c s).sum = c.sum + 1 := by
  unfold fillingStep
  rw [if_pos hin]
  apply sum_set_getD_add_one
  rw [hlen]
  omega

theorem fillingCounts_foldl_spec (tr : List ℤ) (N : ℕ) :
    ∀ (draws : List ℕ) (c : List ℕ), c.length = N →
      (∀ s ∈ draws, 0 ≤ tr.getD s 0 + ((N / 2 : ℕ) : ℤ) ∧
        tr.getD s 0 + ((N / 2 : ℕ) : ℤ) < (N : ℤ)) →
      (draws.foldl (fillingStep tr N) c).length = N ∧
      (draws.foldl (fillingStep tr N) c).sum = c.sum + draws.length := by
  intro draws
  induction draws with
  | nil =>
    intro c hc _
    exact ⟨hc, by simp⟩
  | cons s ss ih =>
    intro c hc hall
    have hs := hall s (List.mem_cons_self s ss)
    have hstep_len : (fillingStep tr N c s).length = N := by
      rw [fillingStep_length, hc]
    have hstep_sum := fillingStep_sum tr N c s hc hs
    obtain ⟨l1, l2⟩ := ih (fillingStep tr N c s) hstep_len
      (fun q hq => hall q (List.mem_cons_of_mem s hq))
    rw [List.foldl_cons]
    refine ⟨l1, ?_⟩
    rw [l2, hstep_sum, List.length_cons]
    omega

theorem list_sum_map_div (c : List ℕ) (S : ℚ) :
    (c.map fun (x : ℕ) => (x : ℚ) / S).sum =
      ((c.map fun (x : ℕ) => (x : ℚ)).sum) / S := by
  induction c with
  | nil => simp
  | cons x xs ih =>
    rw [List.map_cons, List.map_cons, List.sum_cons, List.sum_cons, ih, add_div]

end Filling

/-! ### Parameter validation and density-shape dispatch

`LUT_1D_Cartesian.py` asserts the three parameters are positive even
integers and accepts only the exact string `"gauss"`;
`cartesian1Dtrajectory.py` performs the same checks but compares
`density_shape.lower()` against `"gauss"`. -/

/-- `mustBePosEvenInt`: `isinstance(x, int) and x > 0 and x % 2 == 0`. -/
def mustBePosEvenInt (x : ℤ) : Bool :=
  decide (0 < x) && decide (x % 2 = 0)

/-- The `LUT_1D_Cartesian.py` script: checks, then exact shape match, then
the numeric pipeline. -/
noncomputable def runLUT1DCartesian (N L σ : ℤ) (shape : String) (fuel : ℕ) :
    Except String (List ℤ) :=
  if ¬ (mustBePosEvenInt N ∧ mustBePosEvenInt L ∧ mustBePosEvenInt σ) then
    Except.error "Input must be a positive, even integer."
  else if shape = "gauss" then
    Except.ok (cartesianTraj N.toNat L.toNat σ.toNat fuel)
  else
    Except.error "Unsupported density shape"

/-- `str.lower()` on the ASCII range, as applied to the shape selector. -/
def toLowerStr (s : String) : String :=
  String.mk (s.data.map fun c =>
    if 65 ≤ c.toNat ∧ c.toNat ≤ 90 then Char.ofNat (c.toNat + 32) else c)

/-- The `generate_cartesian_1d_trajectory` function of
`cartesian1Dtrajectory.py`: same checks, case-insensitive shape match
(`density_shape.lower() == "gauss"`). -/
noncomputable def runCartesian1D (N L σ : ℤ) (shape : String) (fuel : ℕ) :
    Except String (List ℤ) :=
  if ¬ (mustBePosEvenInt N ∧ mustBePosEvenInt L ∧ mustBePosEvenInt σ) then
    Except.error "must be a positive, even integer"
  else if toLowerStr shape = "gauss" then
    Except.ok (cartesianTraj N.toNat L.toNat σ.toNat fuel)
  else
    Except.error "Unsupported density_shape"

/-! ### Spec-side description of the zigzag order -/

/-- The zigzag order as §4.3 of the spec describes it: odd lines
`1, 3, …, N−1` ascending, then even lines `N, N−2, …, 2` descending, line
`k` repeated `1 + r[k]` times, recentered by subtracting `N/2 + 1`. -/
def zigzagSpec (r : List ℤ) (N : ℕ) : List ℤ :=
  ((List.range (N / 2)).map fun t =>
    List.replicate (1 + r.getD (2 * t) 0).toNat
      ((2 * t + 1 : ℤ) - ((N / 2 : ℕ) : ℤ) - 1)).join ++
  ((List.range (N / 2)).map fun t =>
    List.replicate (1 + r.getD (N - 1 - 2 * t) 0).toNat
      (((N : ℤ) - 2 * t) - ((N / 2 : ℕ) : ℤ) - 1)).join

section ZigzagSpecSection

theorem getD_map_one_add : ∀ (r : List ℤ) (i : ℕ), i < r.length →
    ((r.map fun x => 1 + x).getD i 0) = 1 + r.getD i 0 := by
  intro r
  induction r with
  | nil =>
    intro i hi
    simp at hi
  | cons x xs ih =>
    intro i hi
    cases i with
    | zero => rfl
    | succ j =>
      have hj : j < xs.length := by simpa using hi
      simp only [List.map_cons, List.getD_cons_succ]
      exact ih j hj

/-- The assembled trajectory is exactly the zigzag order described in the
spec, for a repeat vector `r` of length `N` (`N` even). -/
theorem trajOf_eq_zigzagSpec {r : List ℤ} {N : ℕ} (hlen : r.length = N)
    (hN : Even N) : trajOf (r.map fun x => 1 + x) N = zigzagSpec r N := by
  obtain ⟨M, hM⟩ := hN
  have h2M : N = 2 * M := by omega
  subst h2M
  have hup : (2 * M + 1) / 2 = M := by omega
  have hdownr : 2 * M / 2 = M := by omega
  unfold trajOf trajRawOf zigzagSpec upIndices downIndices
  rw [hup, hdownr, List.map_join, List.map_map, List.map_append, List.join_append,
    List.map_map, List.map_map]
  congr 1
  · congr 1
    apply List.map_congr_left
    intro t ht
    have htM : t < M := List.mem_range.1 ht
    have hidx : 2 * t < r.length := by omega
    simp only [Function.comp_apply, List.map_replicate]
    rw [getD_map_one_add r (2 * t) hidx]
    congr 1
  · congr 1
    apply List.map_congr_left
    intro t ht
    have htM : t < M := List.mem_range.1 ht
    have hidx : 2 * M - 1 - 2 * t < r.length := by omega
    simp only [Function.comp_apply, List.map_replicate]
    rw [getD_map_one_add r (2 * M - 1 - 2 * t) hidx]
    congr 1
    have hcast : ((2 * M - 1 - 2 * t : ℕ) : ℤ) = 2 * (M : ℤ) - 1 - 2 * t := by
      omega
    rw [hcast]
    push_cast
    ring

end ZigzagSpecSection

/-! ### Golden-angle pseudo-radial generator (`exLUT_3D_radialTrajectory.py`)

Spokes of `2 * max(dimy, dimz)` samples spanning `t ∈ [-1, 1]` are rotated
by the selected tiny golden angle, rasterized with `np.round`, optionally
reversed on even spoke numbers, deduplicated with a seen-set, filtered to
the elliptical support, and accumulated until `dimy * dimz` points exist
(truncating on overshoot). -/

/-- The ten tabulated tiny golden angles (degrees). -/
def tinyGoldenAngles : List ℚ :=
  [111.24611, 68.75388, 49.75077, 38.97762, 32.03967,
   27.19840, 23.62814, 20.88643, 18.71484, 16.95229]

/-- `np.linspace(-1, 1, nS)` sample `i`. -/
def linT (nS i : ℕ) : ℚ := -1 + 2 * i / ((nS : ℚ) - 1)

/-- The elliptical support inequality `y²/ry² + z²/rz² ≤ 1` with
`ry = dimy/2`, `rz = dimz/2`. -/
def insideEllipse (dimy dimz : ℕ) (p : ℤ × ℤ) : Prop :=
  ((p.1 : ℚ) ^ 2) / ((dimy : ℚ) / 2) ^ 2 + ((p.2 : ℚ) ^ 2) / ((dimz : ℚ) / 2) ^ 2 ≤ 1

instance insideEllipse_decidable (dimy dimz : ℕ) (p : ℤ × ℤ) :
    Decidable (insideEllipse dimy dimz p) :=
  inferInstanceAs (Decidable (((p.1 : ℚ) ^ 2) / ((dimy : ℚ) / 2) ^ 2 +
    ((p.2 : ℚ) ^ 2) / ((dimz : ℚ) / 2) ^ 2 ≤ 1))

/-- One rasterized spoke at angle `θ`:
`np.round(t * cos(theta) * ry)`, `np.round(t * sin(theta) * rz)`. -/
noncomputable def spokeRaw (dimy dimz nS : ℕ) (θ : ℝ) : List (ℤ × ℤ) :=
  (List.range nS).map fun (i : ℕ) =>
    (npRound (((linT nS i : ℚ) : ℝ) * Real.cos θ * ((dimy : ℝ) / 2)),
     npRound (((linT nS i : ℚ) : ℝ) * Real.sin θ * ((dimz : ℝ) / 2)))

/-- The per-spoke seen-set deduplication keeping first occurrences. -/
def uniqueAux : List (ℤ × ℤ) → List (ℤ × ℤ) → List (ℤ × ℤ)
  | _, [] => []
  | seen, p :: ps => if p ∈ seen then uniqueAux seen ps else p :: uniqueAux (p :: seen) ps

/-- Spoke number `n` (1-based): cumulative angle `n * ga` degrees,
alternate reversal for `order == 1`, dedup, elliptical filter. -/
noncomputable def spokeOf (dimy dimz : ℕ) (order : ℤ) (ga : ℚ) (n : ℕ) :
    List (ℤ × ℤ) :=
  (uniqueAux []
    (if order = 1 ∧ n % 2 = 0 then
      (spokeRaw dimy dimz (2 * max dimy dimz) ((n : ℝ) * (ga : ℝ) * Real.pi / 180)).reverse
    else
      spokeRaw dimy dimz (2 * max dimy dimz) ((n : ℝ) * (ga : ℝ) * Real.pi / 180))).filter
    fun p => insideEllipse dimy dimz p

/-- The accumulation loop `while len(kSpaceList) < numPointsTarget`. -/
noncomputable def radialAux (dimy dimz : ℕ) (order : ℤ) (ga : ℚ) :
    ℕ → List (ℤ × ℤ) → ℕ → List (ℤ × ℤ)
  | 0, acc, _ => acc
  | fuel + 1, acc, n =>
    if acc.length < dimy * dimz then
      if dimy * dimz < (acc ++ spokeOf dimy dimz order ga (n + 1)).length then
        (acc ++ spokeOf dimy dimz order ga (n + 1)).take (dimy * dimz)
      else
        radialAux dimy dimz order ga fuel (acc ++ spokeOf dimy dimz order ga (n + 1)) (n + 1)
    else acc

/-- The pseudo-radial `kSpaceList`. -/
noncomputable def radialKSpaceList (dimy dimz : ℕ) (order : ℤ) (angleNr : ℕ)
    (fuel : ℕ) : List (ℤ × ℤ) :=
  radialAux dimy dimz order (tinyGoldenAngles.getD (angleNr - 1) 0) fuel [] 0

section Radial

theorem mem_uniqueAux : ∀ (l seen : List (ℤ × ℤ)) (p : ℤ × ℤ),
    p ∈ l → p ∉ seen → p ∈ uniqueAux seen l := by
  intro l
  induction l with
  | nil =>
    intro seen p hp
    cases hp
  | cons q qs ih =>
    intro seen p hp hseen
    unfold uniqueAux
    by_cases hq : q ∈ seen
    · rw [if_pos hq]
      rcases List.mem_cons.1 hp with rfl | hp2
      · exact absurd hq hseen
      · exact ih seen p hp2 hseen
    · rw [if_neg hq]
      rcases List.mem_cons.1 hp with rfl | hp2
      · exact List.mem_cons_self p _
      · by_cases hpq : p = q
        · subst hpq
          exact List.mem_cons_self p _
        · exact List.mem_cons_of_mem q
            (ih (q :: seen) p hp2 (by simp [hpq, hseen]))

theorem npRound_eq_zero_of_abs_lt {x : ℝ} (h : |x| < 1 / 2) : npRound x = 0 := by
  have h1 := abs_lt.1 h
  apply npRound_eq_of_bounds
  · push_cast
    linarith [h1.1]
  · push_cast
    linarith [h1.2]

theorem origin_mem_spokeRaw {dimy dimz : ℕ} (h2y : 2 ≤ dimy) (h2z : 2 ≤ dimz)
    (θ : ℝ) : ((0, 0) : ℤ × ℤ) ∈ spokeRaw dimy dimz (2 * max dimy dimz) θ := by
  set mx := max dimy dimz with hmx
  have hmx2 : 2 ≤ mx := le_trans h2y (le_max_left dimy dimz)
  have hiy : dimy ≤ mx := le_max_left dimy dimz
  have hiz : dimz ≤ mx := le_max_right dimy dimz
  have hi0 : mx - 1 < 2 * mx := by omega
  have htval : linT (2 * mx) (mx - 1) = -1 / ((2 * mx : ℚ) - 1) := by
    unfold linT
    have hne : ((2 * mx : ℚ)) - 1 ≠ 0 := by
      have : (2 : ℚ) * 2 ≤ 2 * (mx : ℚ) := by
        have : (2 : ℚ) ≤ mx := by exact_mod_cast hmx2
        nlinarith
      push_cast
      nlinarith
    have hcast : ((mx - 1 : ℕ) : ℚ) = (mx : ℚ) - 1 := by
      have : (1 : ℕ) ≤ mx := by omega
      push_cast [this]
      ring
    rw [hcast]
    push_cast
    field_simp
    ring
  have habs : |((linT (2 * mx) (mx - 1) : ℚ) : ℝ)| = 1 / ((2 * mx : ℝ) - 1) := by
    rw [htval]
    push_cast
    rw [abs_div, abs_neg, abs_one]
    congr 1
    rw [abs_of_pos]
    have : (2 : ℝ) * 2 ≤ 2 * (mx : ℝ) := by
      have : (2 : ℝ) ≤ mx := by exact_mod_cast hmx2
      nlinarith
    linarith
  apply List.mem_map.2
  refine ⟨mx - 1, List.mem_range.2 hi0, ?_⟩
  have hy : npRound (((linT (2 * mx) (mx - 1) : ℚ) : ℝ) * Real.cos θ *
      ((dimy : ℝ) / 2)) = 0 := by
    apply npRound_eq_zero_of_abs_lt
    rw [abs_mul, abs_mul, habs]
    have hcos := Real.abs_cos_le_one θ
    have hdy : |((dimy : ℝ)) / 2| = (dimy : ℝ) / 2 := by
      rw [abs_of_nonneg]
      positivity
    rw [hdy]
    have hlt : (dimy : ℝ) / 2 < (1 / 2) * ((2 * mx : ℝ) - 1) := by
      have h1 : (dimy : ℝ) ≤ mx := by exact_mod_cast hiy
      have h2 : (2 : ℝ) ≤ mx := by exact_mod_cast hmx2
      nlinarith
    have hpos : (0 : ℝ) < (2 * mx : ℝ) - 1 := by
      have h2 : (2 : ℝ) ≤ mx := by exact_mod_cast hmx2
      nlinarith
    calc 1 / ((2 * mx : ℝ) - 1) * |Real.cos θ| * ((dimy : ℝ) / 2)
        ≤ 1 / ((2 * mx : ℝ) - 1) * 1 * ((dimy : ℝ) / 2) := by
          apply mul_le_mul_of_nonneg_right _ (by positivity)
          apply mul_le_mul_of_nonneg_left hcos (by positivity)
      _ = ((dimy : ℝ) / 2) / ((2 * mx : ℝ) - 1) := by ring
      _ < 1 / 2 := by
          rw [div_lt_iff hpos]
          linarith
  have hz : npRound (((linT (2 * mx) (mx - 1) : ℚ) : ℝ) * Real.sin θ *
      ((dimz : ℝ) / 2)) = 0 := by
    apply npRound_eq_zero_of_abs_lt
    rw [abs_mul, abs_mul, habs]
    have hsin := Real.abs_sin_le_one θ
    have hdz : |((dimz : ℝ)) / 2| = (dimz : ℝ) / 2 := by
      rw [abs_of_nonneg]
      positivity
    rw [hdz]
    have hpos : (0 : ℝ) < (2 * mx : ℝ) - 1 := by
      have h2 : (2 : ℝ) ≤ mx := by exact_mod_cast hmx2
      nlinarith
    calc 1 / ((2 * mx : ℝ) - 1) * |Real.sin θ| * ((dimz : ℝ) / 2)
        ≤ 1 / ((2 * mx : ℝ) - 1) * 1 * ((dimz : ℝ) / 2) := by
          apply mul_le_mul_of_nonneg_right _ (by positivity)
          apply mul_le_mul_of_nonneg_left hsin (by positivity)
      _ = ((dimz : ℝ) / 2) / ((2 * mx : ℝ) - 1) := by ring
      _ < 1 / 2 := by
          rw [div_lt_iff hpos]
          have h1 : (dimz : ℝ) ≤ mx := by exact_mod_cast hiz
          have h2 : (2 : ℝ) ≤ mx := by exact_mod_cast hmx2
          nlinarith
  rw [hy, hz]

theorem insideEllipse_origin (dimy dimz : ℕ) : insideEllipse dimy dimz (0, 0) := by
  unfold insideEllipse
  norm_num

theorem origin_mem_spokeOf {dimy dimz : ℕ} (h2y : 2 ≤ dimy) (h2z : 2 ≤ dimz)
    (order : ℤ) (ga : ℚ) (n : ℕ) : ((0, 0) : ℤ × ℤ) ∈ spokeOf dimy dimz order ga n := by
  unfold spokeOf
  apply List.mem_filter.2
  constructor
  · apply mem_uniqueAux
    · split
      · rw [List.mem_reverse]
        exact origin_mem_spokeRaw h2y h2z _
      · exact origin_mem_spokeRaw h2y h2z _
    · simp
  · simpa using insideEllipse_origin dimy dimz

theorem spokeOf_inside {dimy dimz : ℕ} (order : ℤ) (ga : ℚ) (n : ℕ) :
    ∀ p ∈ spokeOf dimy dimz order ga n, insideEllipse dimy dimz p := by
  intro p hp
  unfold spokeOf at hp
  have := List.mem_filter.1 hp
  simpa using this.2

theorem radialAux_spec {dimy dimz : ℕ} (order : ℤ) (ga : ℚ)
    (h2y : 2 ≤ dimy) (h2z : 2 ≤ dimz) :
    ∀ (fuel : ℕ) (acc : List (ℤ × ℤ)) (n : ℕ),
      (∀ p ∈ acc, insideEllipse dimy dimz p) →
      acc.length ≤ dimy * dimz →
      dimy * dimz ≤ acc.length + fuel →
      (radialAux dimy dimz order ga fuel acc n).length = dimy * dimz ∧
      ∀ p ∈ radialAux dimy dimz order ga fuel acc n, insideEllipse dimy dimz p := by
  intro fuel
  induction fuel with
  | zero =>
    intro acc n hin hle hge
    have : acc.length = dimy * dimz := by omega
    unfold radialAux
    exact ⟨this, hin⟩
  | succ f ih =>
    intro acc n hin hle hge
    by_cases hlen : acc.length < dimy * dimz
    · have hsp : ((0, 0) : ℤ × ℤ) ∈ spokeOf dimy dimz order ga (n + 1) :=
        origin_mem_spokeOf h2y h2z order ga (n + 1)
      have hsplen : 1 ≤ (spokeOf dimy dimz order ga (n + 1)).length :=
        List.length_pos.2 (fun hnil => by simp [hnil] at hsp)
      have hin2 : ∀ p ∈ acc ++ spokeOf dimy dimz order ga (n + 1),
          insideEllipse dimy dimz p := by
        intro p hp
        rcases List.mem_append.1 hp with h | h
        · exact hin p h
        · exact spokeOf_inside order ga (n + 1) p h
      by_cases hover : dimy * dimz < (acc ++ spokeOf dimy dimz order ga (n + 1)).length
      · unfold radialAux
        rw [if_pos hlen, if_pos hover]
        constructor
        · rw [List.length_take]
          omega
        · intro p hp
          exact hin2 p (List.take_subset _ _ hp)
      · unfold radialAux
        rw [if_pos hlen, if_neg hover]
        apply ih
        · exact hin2
        · omega
        · rw [List.length_append]
          omega
    · unfold radialAux
      rw [if_neg hlen]
      exact ⟨by omega, hin⟩

/-- The pseudo-radial generator terminates with exactly `dimy * dimz`
points, all inside the elliptical support, whenever the fuel covers the
target (each spoke contributes at least the grid center). -/
theorem radialKSpaceList_spec {dimy dimz : ℕ} (order : ℤ) (angleNr : ℕ)
    {fuel : ℕ} (h2y : 2 ≤ dimy) (h2z : 2 ≤ dimz) (hfuel : dimy * dimz ≤ fuel) :
    (radialKSpaceList dimy dimz order angleNr fuel).length = dimy * dimz ∧
    ∀ p ∈ radialKSpaceList dimy dimz order angleNr fuel,
      insideEllipse dimy dimz p := by
  unfold radialKSpaceList
  apply radialAux_spec order _ h2y h2z fuel [] 0
  · intro p hp
    cases hp
  · simp
  · simpa using hfuel

end Radial

/-! ### Golden-angle pseudo-spiral generator (`exLUT_3D_spiralTrajectory.py`)

One base arm of 256 samples with power-law radius `t^0.8 * 127` and a
random initial phase is rotated by multiples of the selected golden angle
for 2000 repetitions, scaled from the 256-working grid to `dimy × dimz`,
floored to grid cells, compacted (consecutive duplicates), pruned of every
other origin visit, and truncated to `dimy * dimz * reps`. -/

/-- One consecutive-duplicate compaction pass: the `np.diff` mask keeps the
first row and every row that differs from its original predecessor. -/
def compactPass : List (ℤ × ℤ) → List (ℤ × ℤ)
  | [] => []
  | p :: ps => p :: ((ps.zip (p :: ps)).filter fun q => q.1 ≠ q.2).map Prod.fst

/-- The `for _ in range(100)` "Remove repeats" loop. -/
def removeRepeats (l : List (ℤ × ℤ)) : List (ℤ × ℤ) := compactPass^[100] l

/-- `np.delete(kSpaceList, loc[::2])`: drop the 1st, 3rd, 5th, … occurrence
of the exact origin; `k` counts origin occurrences already passed. -/
def pruneOriginAux : List (ℤ × ℤ) → ℕ → List (ℤ × ℤ)
  | [], _ => []
  | p :: ps, k =>
    if p = (0, 0) then
      if k % 2 = 0 then pruneOriginAux ps (k + 1) else p :: pruneOriginAux ps (k + 1)
    else p :: pruneOriginAux ps k

def pruneOrigin (l : List (ℤ × ℤ)) : List (ℤ × ℤ) := pruneOriginAux l 0

/-- Sample `i` of the base spiral arm in working resolution
(`dimYZ = 256`, `numberOfSpiralPoints = 256`, `gamma = 0.8`, `rev = 1`,
random phase `φ`). -/
noncomputable def spiralBase (φ : ℝ) (i : ℕ) : ℝ × ℝ :=
  (Real.cos (2 * Real.pi * (i : ℝ) / 255 + φ) * (((i : ℝ) / 255) ^ (0.8 : ℝ) * 127) + 128,
   Real.sin (2 * Real.pi * (i : ℝ) / 255 + φ) * (((i : ℝ) / 255) ^ (0.8 : ℝ) * 127) + 128)

/-- Arm `ns` (1-based): rotate the base arm by `ns * ga` degrees about the
working-grid center, rescale to `dimy × dimz`, floor-center to grid
coordinates, reversing alternate arms when `order == 1` (flooring commutes
with the reversal, so it is applied per point). -/
noncomputable def spiralArm (dimy dimz : ℕ) (order : ℤ) (ga : ℚ) (φ : ℝ) (ns : ℕ) :
    List (ℤ × ℤ) :=
  (fun l => if order = 1 ∧ ns % 2 = 0 then l.reverse else l)
    ((List.range 256).map fun (i : ℕ) =>
      (⌊(((spiralBase φ i).1 - 128) * Real.cos ((ns : ℝ) * (ga : ℝ) * Real.pi / 180) +
          ((spiralBase φ i).2 - 128) * Real.sin ((ns : ℝ) * (ga : ℝ) * Real.pi / 180) + 128) *
          ((dimy : ℝ) / 256) - (dimy : ℝ) / 2⌋,
       ⌊(-(((spiralBase φ i).1 - 128)) * Real.sin ((ns : ℝ) * (ga : ℝ) * Real.pi / 180) +
          ((spiralBase φ i).2 - 128) * Real.cos ((ns : ℝ) * (ga : ℝ) * Real.pi / 180) + 128) *
          ((dimz : ℝ) / 256) - (dimz : ℝ) / 2⌋))

/-- All 2000 arms concatenated. -/
noncomputable def spiralRawPoints (dimy dimz : ℕ) (order : ℤ) (ga : ℚ) (φ : ℝ) :
    List (ℤ × ℤ) :=
  ((List.range 2000).map fun ns => spiralArm dimy dimz order ga φ (ns + 1)).join

/-- The pseudo-spiral `kSpaceList` after compaction, origin pruning and
truncation to `dimy * dimz * reps`. -/
noncomputable def spiralKSpaceList (dimy dimz reps : ℕ) (order : ℤ) (angleNr : ℕ)
    (φ : ℝ) : List (ℤ × ℤ) :=
  (pruneOrigin (removeRepeats
    (spiralRawPoints dimy dimz order (tinyGoldenAngles.getD (angleNr - 1) 0) φ))).take
    (dimy * dimz * reps)

/-! ### Coverage analyzer (`coveredFraction` in both 2-D scripts) -/

/-- `np.unique(...).shape[0]`: number of distinct coordinates. -/
def numUniqueOf (l : List (ℤ × ℤ)) : ℕ := l.dedup.length

/-- The grid cells `arange(-dimy//2, dimy//2) × arange(-dimz//2, dimz//2)`. -/
def gridCells (dimy dimz : ℕ) : List (ℤ × ℤ) :=
  (((List.range dimy).map fun (a : ℕ) => (a : ℤ) - ((dimy / 2 : ℕ) : ℤ)).map fun y =>
    ((List.range dimz).map fun (b : ℕ) => (b : ℤ) - ((dimz / 2 : ℕ) : ℤ)).map fun z =>
      (y, z)).join

/-- The elliptical mask cells. -/
def maskCells (dimy dimz : ℕ) : List (ℤ × ℤ) :=
  (gridCells dimy dimz).filter fun p => insideEllipse dimy dimz p

/-- `numEllipticalPoints = np.count_nonzero(ellipticalMask)`. -/
def numEllipticalPoints (dimy dimz : ℕ) : ℕ := (maskCells dimy dimz).length

/-- `coveredFraction = 100 * numUnique / numEllipticalPoints` (percent). -/
def coveredFraction (l : List (ℤ × ℤ)) (dimy dimz : ℕ) : ℚ :=
  100 * (numUniqueOf l : ℚ) / (numEllipticalPoints dimy dimz : ℚ)

section CoverageAndPrune

theorem numUniqueOf_le_length (l : List (ℤ × ℤ)) : numUniqueOf l ≤ l.length :=
  List.Sublist.length_le (List.dedup_sublist l)

theorem numUnique_le_mask {l : List (ℤ × ℤ)} {dimy dimz : ℕ}
    (h : ∀ p ∈ l, p ∈ maskCells dimy dimz) :
    numUniqueOf l ≤ numEllipticalPoints dimy dimz := by
  have hnd : l.dedup.Nodup := l.nodup_dedup
  have hsub : l.dedup ⊆ maskCells dimy dimz := fun p hp =>
    h p ((List.dedup_sublist l).subset hp)
  calc l.dedup.length = l.dedup.toFinset.card := (List.toFinset_card_of_nodup hnd).symm
    _ ≤ (maskCells dimy dimz).toFinset.card := by
        apply Finset.card_le_card
        intro p hp
        rw [List.mem_toFinset] at hp ⊢
        exact hsub hp
    _ ≤ (maskCells dimy dimz).length := (maskCells dimy dimz).toFinset_card_le

theorem div_cast_le_one {u n : ℕ} (h : u ≤ n) : (u : ℚ) / (n : ℚ) ≤ 1 := by
  rcases Nat.eq_zero_or_pos n with rfl | hn
  · interval_cases u
    norm_num
  · rw [div_le_one (by exact_mod_cast hn)]
    exact_mod_cast h

theorem pruneOriginAux_sublist : ∀ (l : List (ℤ × ℤ)) (k : ℕ),
    (pruneOriginAux l k).Sublist l := by
  intro l
  induction l with
  | nil =>
    intro k
    exact List.Sublist.refl []
  | cons p ps ih =>
    intro k
    unfold pruneOriginAux
    by_cases hp : p = (0, 0)
    · rw [if_pos hp]
      by_cases hk : k % 2 = 0
      · rw [if_pos hk]
        exact List.Sublist.cons p (ih (k + 1))
      · rw [if_neg hk]
        exact List.Sublist.cons₂ p (ih (k + 1))
    · rw [if_neg hp]
      exact List.Sublist.cons₂ p (ih k)

theorem pruneOriginAux_filter_ne : ∀ (l : List (ℤ × ℤ)) (k : ℕ),
    (pruneOriginAux l k).filter (fun p => p ≠ (0, 0)) =
      l.filter (fun p => p ≠ (0, 0)) := by
  intro l
  induction l with
  | nil =>
    intro k
    rfl
  | cons p ps ih =>
    intro k
    unfold pruneOriginAux
    by_cases hp : p = (0, 0)
    · subst hp
      rw [if_pos rfl]
      by_cases hk : k % 2 = 0
      · rw [if_pos hk, ih (k + 1)]
        rw [List.filter_cons_of_neg (by simp)]
      · rw [if_neg hk]
        rw [List.filter_cons_of_neg (by simp), List.filter_cons_of_neg (by simp),
          ih (k + 1)]
    · rw [if_neg hp]
      rw [List.filter_cons_of_pos (by simpa using hp),
        List.filter_cons_of_pos (by simpa using hp), ih k]

theorem pruneOriginAux_count : ∀ (l : List (ℤ × ℤ)) (k : ℕ),
    (pruneOriginAux l k).count (0, 0) = (l.count (0, 0) + k % 2) / 2 := by
  intro l
  induction l with
  | nil =>
    intro k
    simp [pruneOriginAux]
  | cons p ps ih =>
    intro k
    unfold pruneOriginAux
    by_cases hp : p = (0, 0)
    · subst hp
      rw [if_pos rfl]
      by_cases hk : k % 2 = 0
      · rw [if_pos hk, ih (k + 1), List.count_cons_self]
        omega
      · rw [if_neg hk, List.count_cons_self, ih (k + 1), List.count_cons_self]
        omega
    · rw [if_neg hp, List.count_cons_of_ne (Ne.symm hp),
        List.count_cons_of_ne (Ne.symm hp), ih k]

theorem pruneOrigin_count (l : List (ℤ × ℤ)) :
    (pruneOrigin l).count (0, 0) = l.count (0, 0) / 2 := by
  unfold pruneOrigin
  rw [pruneOriginAux_count]
  simp

theorem insideEllipse_2_2_vals :
    ¬ insideEllipse 2 2 (-1, -1) ∧ insideEllipse 2 2 (-1, 0) ∧
    insideEllipse 2 2 (0, -1) ∧ insideEllipse 2 2 (0, 0) := by
  unfold insideEllipse
  norm_num

theorem maskCells_2_2 : maskCells 2 2 = [(-1, 0), (0, -1), (0, 0)] := by
  have hg : gridCells 2 2 = [((-1 : ℤ), (-1 : ℤ)), (-1, 0), (0, -1), (0, 0)] := by
    decide
  obtain ⟨e1, e2, e3, e4⟩ := insideEllipse_2_2_vals
  unfold maskCells
  rw [hg, List.filter_cons_of_neg (by simpa using e1),
    List.filter_cons_of_pos (by simpa using e2),
    List.filter_cons_of_pos (by simpa using e3),
    List.filter_cons_of_pos (by simpa using e4)]
  rfl

theorem spiralArm_length (dimy dimz : ℕ) (order : ℤ) (ga : ℚ) (φ : ℝ) (ns : ℕ) :
    (spiralArm dimy dimz order ga φ ns).length = 256 := by
  unfold spiralArm
  split
  · rw [List.length_reverse, List.length_map, List.length_range]
  · rw [List.length_map, List.length_range]

theorem sum_map_const_range (k c : ℕ) :
    ((List.range k).map fun _ => c).sum = k * c := by
  induction k with
  | zero => simp
  | succ n ih =>
    rw [List.range_succ, List.map_append, List.sum_append, ih, List.map_cons,
      List.map_nil, List.sum_cons, List.sum_nil, Nat.succ_mul]
    simp

/-- The spiral generator always emits 2000 arms of 256 samples each:
512000 raw points, whatever the grid, order, angle and phase. -/
theorem spiralRawPoints_length (dimy dimz : ℕ) (order : ℤ) (ga : ℚ) (φ : ℝ) :
    (spiralRawPoints dimy dimz order ga φ).length = 512000 := by
  unfold spiralRawPoints
  rw [List.length_join, List.map_map]
  have hc : (List.length ∘ fun ns => spiralArm dimy dimz order ga φ (ns + 1)) =
      fun _ => 256 := by
    funext ns
    exact spiralArm_length dimy dimz order ga φ (ns + 1)
  rw [hc, sum_map_const_range]

theorem compactPass_length_le (l : List (ℤ × ℤ)) :
    (compactPass l).length ≤ l.length := by
  cases l with
  | nil => exact le_refl 0
  | cons p ps =>
    unfold compactPass
    rw [List.length_cons, List.length_cons]
    have h1 : (((ps.zip (p :: ps)).filter fun q => q.1 ≠ q.2).map Prod.fst).length ≤
        ps.length := by
      rw [List.length_map]
      calc ((ps.zip (p :: ps)).filter fun q => q.1 ≠ q.2).length
          ≤ (ps.zip (p :: ps)).length := List.length_filter_le _ _
        _ ≤ ps.length := by
            rw [List.length_zip]
            exact Nat.min_le_left _ _
    omega

theorem iterate_compactPass_length_le (n : ℕ) (l : List (ℤ × ℤ)) :
    (compactPass^[n] l).length ≤ l.length := by
  induction n generalizing l with
  | zero => exact le_refl _
  | succ m ih =>
    rw [Function.iterate_succ_apply]
    exact le_trans (ih (compactPass l)) (compactPass_length_le l)

theorem removeRepeats_length_le (l : List (ℤ × ℤ)) :
    (removeRepeats l).length ≤ l.length :=
  iterate_compactPass_length_le 100 l

theorem pruneOrigin_length_le (l : List (ℤ × ℤ)) :
    (pruneOrigin l).length ≤ l.length :=
  List.Sublist.length_le (pruneOriginAux_sublist l 0)

end CoverageAndPrune

/-! ## Claims -/

/-- C1 (counterexample): at the valid configuration
`targetKspaceSize = 4`, `trajectoryLength = 44`, `sigma = 8` (surplus
`E = 40`) the scale-up loop exits at step 209657 with rounded vector
`[10, 10, 11, 10]`; no entry equals 1, the trimming loop takes its safety
break, and the balancer returns sum 41 ≠ 40. -/
theorem C1_balancer_sum_counterexample :
    dfOf 4 8 ((44 : ℤ) - (4 : ℤ)) 300000 = [10, 10, 11, 10] ∧
    (dfOf 4 8 ((44 : ℤ) - (4 : ℤ)) 300000).sum ≠ (44 : ℤ) - (4 : ℤ) := by
  have h : ((44 : ℤ) - (4 : ℤ)) = 40 := by norm_num
  rw [h, dfOf_4_8_40]
  constructor
  · rfl
  · decide

/-- C1 (amended): for every valid configuration whose scale-up loop exits
within the fuel, the repeat vector has length `targetKspaceSize` and no
negative entry, and it sums to exactly
`trajectoryLength − targetKspaceSize` provided the trimming loop's safety
break does not fire, i.e. provided the entries `≥ 2` of the rounded vector
at the exit step do not already exceed the surplus. -/
theorem C1_balancer_amended {N L σ fuel : ℕ}
    (hN : 0 < N) (hNe : Even N) (hLe : Even L) (hσ : 0 < σ) (hσe : Even σ)
    (hLN : N ≤ L)
    (hex : ∃ m, m ≤ fuel ∧
      ((L : ℤ) - N) < sumRound (gaussDensity N σ) (incrAt m))
    (hnb : ((roundVec (gaussDensity N σ)
        (incrAt (scaleUpSteps (gaussDensity N σ) ((L : ℤ) - N) fuel 0))).filter
          (fun x => 2 ≤ x)).sum ≤ (L : ℤ) - N) :
    (dfOf N σ ((L : ℤ) - N) fuel).length = N ∧
    (∀ x ∈ dfOf N σ ((L : ℤ) - N) fuel, 0 ≤ x) ∧
    (dfOf N σ ((L : ℤ) - N) fuel).sum = (L : ℤ) - N := by
  obtain ⟨a, b, _, _, e⟩ := dfOf_spec hσ hex
  exact ⟨a, b, e hnb⟩

/-- C1 witness at `targetKspaceSize = trajectoryLength = 4`, `sigma = 2`. -/
theorem C1_balancer_amended_witness :
    (dfOf 4 2 ((4 : ℤ) - (4 : ℤ)) 3000).length = 4 ∧
    (∀ x ∈ dfOf 4 2 ((4 : ℤ) - (4 : ℤ)) 3000, 0 ≤ x) ∧
    (dfOf 4 2 ((4 : ℤ) - (4 : ℤ)) 3000).sum = (4 : ℤ) - (4 : ℤ) := by
  have hex : ∃ m, m ≤ 3000 ∧
      (((4 : ℕ) : ℤ) - ((4 : ℕ) : ℤ)) < sumRound (gaussDensity 4 2) (incrAt m) := by
    simpa using gauss_exit_4_2
  have hnb : ((roundVec (gaussDensity 4 2)
      (incrAt (scaleUpSteps (gaussDensity 4 2) (((4 : ℕ) : ℤ) - ((4 : ℕ) : ℤ)) 3000 0))).filter
        (fun x => 2 ≤ x)).sum ≤ ((4 : ℕ) : ℤ) - ((4 : ℕ) : ℤ) := by
    have h0 : (((4 : ℕ) : ℤ) - ((4 : ℕ) : ℤ)) = 0 := by norm_num
    rw [h0, exit_filter_ge_two_empty (by norm_num) gauss_exit_4_2]
    norm_num
  have h := C1_balancer_amended (by norm_num) (by decide) (by decide) (by norm_num)
    (by decide) (by norm_num) hex hnb
  simpa using h

set_option maxRecDepth 40000 in
/-- C2 (counterexample): at `targetKspaceSize = 4`,
`trajectoryLength = 44`, `sigma = 8` the assembled zigzag has 45 entries,
not `trajectoryLength = 44`. -/
theorem C2_zigzag_length_counterexample :
    (cartesianTraj 4 44 8 300000).length = 45 ∧ (45 : ℕ) ≠ 44 := by
  constructor
  · rw [cartesianTraj_4_44_8]
    decide
  · decide

/-- C2 (amended): every zigzag value lies in
`[−targetKspaceSize/2, targetKspaceSize/2 − 1]`; the output length equals
`targetKspaceSize` plus the balancer sum, hence equals `trajectoryLength`
exactly when the balancer sums to the surplus. -/
theorem C2_zigzag_amended {N L σ fuel : ℕ} (hN : 0 < N) (hNe : Even N)
    (hσ : 0 < σ)
    (hex : ∃ m, m ≤ fuel ∧
      ((L : ℤ) - N) < sumRound (gaussDensity N σ) (incrAt m)) :
    (∀ t ∈ cartesianTraj N L σ fuel,
      -((N : ℤ) / 2) ≤ t ∧ t ≤ (N : ℤ) / 2 - 1) ∧
    ((cartesianTraj N L σ fuel).length : ℤ) =
      (N : ℤ) + (dfOf N σ ((L : ℤ) - N) fuel).sum ∧
    ((dfOf N σ ((L : ℤ) - N) fuel).sum = (L : ℤ) - N →
      ((cartesianTraj N L σ fuel).length : ℤ) = L) := by
  refine ⟨cartesianTraj_range hNe, cartesianTraj_length hσ hNe hex, fun hsum => ?_⟩
  rw [cartesianTraj_length hσ hNe hex, hsum]
  ring

/-- C2 witness at `targetKspaceSize = trajectoryLength = 4`, `sigma = 2`. -/
theorem C2_zigzag_amended_witness :
    (∀ t ∈ cartesianTraj 4 4 2 3000,
      -((4 : ℤ) / 2) ≤ t ∧ t ≤ (4 : ℤ) / 2 - 1) ∧
    ((cartesianTraj 4 4 2 3000).length : ℤ) =
      (4 : ℤ) + (dfOf 4 2 (((4 : ℕ) : ℤ) - ((4 : ℕ) : ℤ)) 3000).sum := by
  have hex : ∃ m, m ≤ 3000 ∧
      (((4 : ℕ) : ℤ) - ((4 : ℕ) : ℤ)) < sumRound (gaussDensity 4 2) (incrAt m) := by
    simpa using gauss_exit_4_2
  have h := C2_zigzag_amended (by norm_num) (by decide) (by norm_num) hex
  exact ⟨h.1, h.2.1⟩

/-- C3 (counterexample): with `reps = 200` on the 64×64 grid the spiral
target `64 * 64 * 200 = 819200` exceeds the 512000 raw points the 2000
arms of 256 samples can ever supply, so the truncated output is strictly
shorter than the target — the spiral output does not always have length
exactly `dimy * dimz * reps`. -/
theorem C3_spiral_length_counterexample :
    (spiralKSpaceList 64 64 200 1 3 0).length ≠ 64 * 64 * 200 := by
  have hb : (spiralKSpaceList 64 64 200 1 3 0).length ≤ 512000 := by
    unfold spiralKSpaceList
    calc ((pruneOrigin (removeRepeats (spiralRawPoints 64 64 1
          (tinyGoldenAngles.getD (3 - 1) 0) 0))).take (64 * 64 * 200)).length
        ≤ (pruneOrigin (removeRepeats (spiralRawPoints 64 64 1
            (tinyGoldenAngles.getD (3 - 1) 0) 0))).length := by
          rw [List.length_take]
          exact Nat.min_le_right _ _
      _ ≤ (removeRepeats (spiralRawPoints 64 64 1
            (tinyGoldenAngles.getD (3 - 1) 0) 0)).length :=
          pruneOrigin_length_le _
      _ ≤ (spiralRawPoints 64 64 1 (tinyGoldenAngles.getD (3 - 1) 0) 0).length :=
          removeRepeats_length_le _
      _ = 512000 := spiralRawPoints_length 64 64 1 _ 0
  omega

/-- C3 (amended): the golden-angle spoke generator terminates with exactly
`dimy * dimz` coordinates, all satisfying the elliptical support
inequality.  The spiral generator always emits 512000 raw points (2000
arms of 256 samples); its output length is the minimum of
`dimy * dimz * reps` and the number of points surviving compaction and
origin pruning, so it equals `dimy * dimz * reps` exactly in the
overshoot case — when at least that many points remain — and is strictly
shorter otherwise. -/
theorem C3_generator_lengths :
    (∀ (dimy dimz : ℕ) (order : ℤ) (angleNr fuel : ℕ),
      2 ≤ dimy → 2 ≤ dimz → dimy * dimz ≤ fuel →
      (radialKSpaceList dimy dimz order angleNr fuel).length = dimy * dimz ∧
      ∀ p ∈ radialKSpaceList dimy dimz order angleNr fuel,
        insideEllipse dimy dimz p) ∧
    (∀ (dimy dimz : ℕ) (order : ℤ) (ga : ℚ) (φ : ℝ),
      (spiralRawPoints dimy dimz order ga φ).length = 512000) ∧
    (∀ (dimy dimz reps : ℕ) (order : ℤ) (angleNr : ℕ) (φ : ℝ),
      (spiralKSpaceList dimy dimz reps order angleNr φ).length =
        min (dimy * dimz * reps)
          (pruneOrigin (removeRepeats (spiralRawPoints dimy dimz order
            (tinyGoldenAngles.getD (angleNr - 1) 0) φ))).length) ∧
    (∀ (raw : List (ℤ × ℤ)) (target : ℕ),
      target ≤ (pruneOrigin (removeRepeats raw)).length →
      ((pruneOrigin (removeRepeats raw)).take target).length = target) := by
  refine ⟨fun dy dz o a f h1 h2 h3 => radialKSpaceList_spec o a h1 h2 h3,
    fun dy dz o ga φ => spiralRawPoints_length dy dz o ga φ,
    fun dy dz reps o a φ => ?_, fun raw t ht => ?_⟩
  · unfold spiralKSpaceList
    rw [List.length_take]
  · rw [List.length_take]
    omega

set_option maxRecDepth 40000 in
/-- C3 witness: radial at `dimy = dimz = 2`, raw spiral size at the same
grid, and the overshoot truncation at a two-point list. -/
theorem C3_generator_lengths_witness :
    (radialKSpaceList 2 2 1 1 4).length = 2 * 2 ∧
    (spiralRawPoints 2 2 1 (tinyGoldenAngles.getD 0 0) 0).length = 512000 ∧
    ((pruneOrigin (removeRepeats [((0, 0) : ℤ × ℤ), (1, 0)])).take 1).length = 1 := by
  refine ⟨(C3_generator_lengths.1 2 2 1 1 4 (by norm_num) (by norm_num)
      (by norm_num)).1,
    C3_generator_lengths.2.1 2 2 1 (tinyGoldenAngles.getD 0 0) 0,
    C3_generator_lengths.2.2.2 [((0, 0) : ℤ × ℤ), (1, 0)] 1 (by decide)⟩

/-- C4 (counterexample): a sample sequence containing the out-of-mask cell
`(-1, -1)` on a 2×2 grid has 4 distinct coordinates against 3 elliptical
mask cells, so the coverage fraction exceeds 1 (`coveredFraction > 100`). -/
theorem C4_coverage_counterexample :
    (1 : ℚ) < (numUniqueOf [((-1, -1) : ℤ × ℤ), (0, 0), (-1, 0), (0, -1)] : ℚ) /
      (numEllipticalPoints 2 2 : ℚ) ∧
    (100 : ℚ) < coveredFraction [((-1, -1) : ℤ × ℤ), (0, 0), (-1, 0), (0, -1)] 2 2 := by
  have h1 : numUniqueOf [((-1, -1) : ℤ × ℤ), (0, 0), (-1, 0), (0, -1)] = 4 := by
    decide
  have h2 : numEllipticalPoints 2 2 = 3 := by
    unfold numEllipticalPoints
    rw [maskCells_2_2]
    rfl
  unfold coveredFraction
  rw [h1, h2]
  norm_num

/-- C4 (amended): the unique count never exceeds the total count, and the
coverage fraction is at most 1 (`coveredFraction ≤ 100`) whenever every
analyzed coordinate lies in the elliptical grid mask — which the radial
feed guarantees by construction, but the spiral feed does not. -/
theorem C4_coverage_amended (l : List (ℤ × ℤ)) (dimy dimz : ℕ)
    (h : ∀ p ∈ l, p ∈ maskCells dimy dimz) :
    numUniqueOf l ≤ l.length ∧
    (numUniqueOf l : ℚ) / (numEllipticalPoints dimy dimz : ℚ) ≤ 1 ∧
    coveredFraction l dimy dimz ≤ 100 := by
  have h1 := numUniqueOf_le_length l
  have h2 := numUnique_le_mask h
  have h3 := div_cast_le_one h2
  refine ⟨h1, h3, ?_⟩
  unfold coveredFraction
  rw [mul_div_assoc]
  linarith

/-- C4 witness: a single-origin sequence on a 2×2 grid. -/
theorem C4_coverage_amended_witness :
    coveredFraction [((0, 0) : ℤ × ℤ)] 2 2 ≤ 100 :=
  (C4_coverage_amended [((0, 0) : ℤ × ℤ)] 2 2 (by
    intro p hp
    rw [maskCells_2_2]
    rcases List.mem_singleton.1 hp with rfl
    decide)).2.2

/-- C5 (counterexample): the function version lowercases the selector, so
the non-`"gauss"` string `"Gauss"` is accepted and synthesis succeeds. -/
theorem C5_shape_counterexample :
    "Gauss" ≠ "gauss" ∧
    (runCartesian1D 192 256 8 "Gauss" 300000).isOk = true := by
  constructor
  · decide
  · have h1 : ¬ ¬ ((mustBePosEvenInt 192 : Bool) = true ∧
        (mustBePosEvenInt 256 : Bool) = true ∧ (mustBePosEvenInt 8 : Bool) = true) := by
      decide
    have h2 : toLowerStr "Gauss" = "gauss" := by decide
    unfold runCartesian1D
    rw [if_neg h1, if_pos h2]
    rfl

/-- C5 (amended): the LUT script rejects any selector other than exactly
`"gauss"`, the function version any selector whose lowercasing is not
`"gauss"`; in both cases an error is returned and no trajectory output is
produced. -/
theorem C5_shape_amended (N L σ : ℤ) (shape : String) (fuel : ℕ) :
    (shape ≠ "gauss" → (runLUT1DCartesian N L σ shape fuel).isOk = false) ∧
    (toLowerStr shape ≠ "gauss" → (runCartesian1D N L σ shape fuel).isOk = false) := by
  constructor
  · intro hs
    unfold runLUT1DCartesian
    by_cases hv : ¬ (mustBePosEvenInt N = true ∧ mustBePosEvenInt L = true ∧
        mustBePosEvenInt σ = true)
    · rw [if_pos hv]
      rfl
    · rw [if_neg hv, if_neg hs]
      rfl
  · intro hs
    unfold runCartesian1D
    by_cases hv : ¬ (mustBePosEvenInt N = true ∧ mustBePosEvenInt L = true ∧
        mustBePosEvenInt σ = true)
    · rw [if_pos hv]
      rfl
    · rw [if_neg hv, if_neg hs]
      rfl

/-- C5 witness: the selector `"radial"` is rejected by both versions. -/
theorem C5_shape_amended_witness :
    (runLUT1DCartesian 192 256 8 "radial" 300000).isOk = false ∧
    (runCartesian1D 192 256 8 "radial" 300000).isOk = false := by
  have h := C5_shape_amended 192 256 8 "radial" 300000
  exact ⟨h.1 (by decide), h.2 (by decide)⟩

/-- C6: the assembled sequence is the odd lines ascending then the even
lines descending, line `k` repeated `1 + r[k]` times, recentered by
`N/2 + 1`; and at `targetKspaceSize = trajectoryLength = 4` the repeat
counts are all zero and the sequence is `[1, 3, 4, 2] − 3 = [-2, 0, 1, -1]`. -/
theorem C6_zigzag_structure :
    (∀ (r : List ℤ) (N : ℕ), r.length = N → Even N →
      trajOf (r.map fun x => 1 + x) N = zigzagSpec r N) ∧
    (∀ σ fuel : ℕ, 2 ≤ σ →
      (∃ m, m ≤ fuel ∧ (0 : ℤ) < sumRound (gaussDensity 4 σ) (incrAt m)) →
      dfOf 4 σ 0 fuel = [0, 0, 0, 0] ∧
      cartesianTraj 4 4 σ fuel = [-2, 0, 1, -1]) := by
  constructor
  · exact fun r N h1 h2 => trajOf_eq_zigzagSpec h1 h2
  · intro σ fuel hσ hex
    have hdf : dfOf 4 σ 0 fuel = [0, 0, 0, 0] := by
      rw [dfOf_no_surplus hσ hex]
      rfl
    refine ⟨hdf, ?_⟩
    unfold cartesianTraj
    rw [show (((4 : ℕ) : ℤ) - ((4 : ℕ) : ℤ)) = 0 by norm_num]
    unfold dIntOf
    rw [hdf]
    decide

/-- C6 witness at `sigma = 2`. -/
theorem C6_zigzag_structure_witness :
    dfOf 4 2 0 3000 = [0, 0, 0, 0] ∧
    cartesianTraj 4 4 2 3000 = [-2, 0, 1, -1] :=
  C6_zigzag_structure.2 2 3000 (by norm_num) gauss_exit_4_2

/-- C7: the gauss density weight vector is strictly positive at every
index and symmetric about the center index `N/2 + 1`: in 0-based terms,
entry `N/2 − j` equals entry `N/2 + j` whenever both indices exist. -/
theorem C7_gauss_density {N σ : ℕ} (hσ : 0 < σ) (hσe : Even σ) (hN : 0 < N)
    (hNe : Even N) :
    (∀ k, k < N → 0 < (gaussDensity N σ).getD k 0) ∧
    (∀ j : ℕ, j ≤ N / 2 → N / 2 + j < N →
      (gaussDensity N σ).getD (N / 2 - j) 0 =
        (gaussDensity N σ).getD (N / 2 + j) 0) := by
  have hlen := gaussDensity_length N σ
  constructor
  · intro k hk
    have hk2 : k < (gaussDensity N σ).length := by omega
    rw [List.getD_eq_getElem _ _ hk2]
    exact gaussDensity_pos hσ _ (List.getElem_mem hk2)
  · intro j hj1 hj2
    have hi1 : N / 2 - j < (gaussDensity N σ).length := by omega
    have hi2 : N / 2 + j < (gaussDensity N σ).length := by omega
    rw [List.getD_eq_getElem _ _ hi1, List.getD_eq_getElem _ _ hi2]
    unfold gaussDensity
    rw [List.getElem_map, List.getElem_map, List.getElem_range, List.getElem_range]
    congr 2
    have hcast : (((N / 2 - j : ℕ)) : ℝ) = ((N / 2 : ℕ) : ℝ) - (j : ℝ) := by
      have : j ≤ N / 2 := hj1
      push_cast [this]
      ring
    rw [hcast]
    push_cast
    ring

/-- C7 witness at `N = 4`, `σ = 2`, `j = 1`. -/
theorem C7_gauss_density_witness :
    0 < (gaussDensity 4 2).getD 0 0 ∧
    (gaussDensity 4 2).getD (4 / 2 - 1) 0 = (gaussDensity 4 2).getD (4 / 2 + 1) 0 := by
  have h := C7_gauss_density (show 0 < 2 by norm_num) (by decide)
    (show 0 < 4 by norm_num) (by decide)
  exact ⟨h.1 0 (by norm_num), h.2 1 (by norm_num) (by norm_num)⟩

/-- C9: for draws inside `[0, trajectoryLength)` every bucket index
`traj[s] + targetKspaceSize/2` lies in `[0, targetKspaceSize)` (the
out-of-range skip branch never fires), the counts sum to exactly the
number of draws, and the normalized histogram is non-negative and sums
to 1. -/
theorem C9_filling {N L σ fuel : ℕ} (hN : 0 < N) (hNe : Even N) (hσ : 0 < σ)
    (hLN : N ≤ L)
    (hex : ∃ m, m ≤ fuel ∧
      ((L : ℤ) - N) < sumRound (gaussDensity N σ) (incrAt m))
    (draws : List ℕ) (hdr : draws ≠ []) (hlt : ∀ s ∈ draws, s < L) :
    (∀ s ∈ draws,
      0 ≤ (cartesianTraj N L σ fuel).getD s 0 + ((N / 2 : ℕ) : ℤ) ∧
      (cartesianTraj N L σ fuel).getD s 0 + ((N / 2 : ℕ) : ℤ) < (N : ℤ)) ∧
    (fillingCounts (cartesianTraj N L σ fuel) N draws).sum = draws.length ∧
    (∀ q ∈ fillingOf (cartesianTraj N L σ fuel) N draws, 0 ≤ q) ∧
    (fillingOf (cartesianTraj N L σ fuel) N draws).sum = 1 := by
  have hdiv : ((N / 2 : ℕ) : ℤ) = (N : ℤ) / 2 := by omega
  have hlenZ := cartesianTraj_length hσ hNe hex
  have hdfsum := (dfOf_spec hσ hex).2.2.1
  have hlenL : L ≤ (cartesianTraj N L σ fuel).length := by
    have : ((cartesianTraj N L σ fuel).length : ℤ) =
        (N : ℤ) + (dfOf N σ ((L : ℤ) - N) fuel).sum := hlenZ
    omega
  have hbucket : ∀ s ∈ draws,
      0 ≤ (cartesianTraj N L σ fuel).getD s 0 + ((N / 2 : ℕ) : ℤ) ∧
      (cartesianTraj N L σ fuel).getD s 0 + ((N / 2 : ℕ) : ℤ) < (N : ℤ) := by
    intro s hs
    have hsl : s < (cartesianTraj N L σ fuel).length := by
      have := hlt s hs
      omega
    rw [List.getD_eq_getElem _ _ hsl]
    have hmem := List.getElem_mem hsl
    have hrange := cartesianTraj_range hNe _ hmem
    rw [hdiv]
    omega
  have hcounts := fillingCounts_foldl_spec (cartesianTraj N L σ fuel) N draws
    (List.replicate N 0) (by rw [List.length_replicate]) hbucket
  have hsum : (fillingCounts (cartesianTraj N L σ fuel) N draws).sum =
      draws.length := by
    unfold fillingCounts
    rw [hcounts.2]
    simp
  refine ⟨hbucket, hsum, ?_, ?_⟩
  · intro q hq
    obtain ⟨x, hx, rfl⟩ := List.mem_map.1 hq
    positivity
  · unfold fillingOf
    rw [list_sum_map_div, ← Nat.cast_list_sum, hsum]
    have hpos : 0 < draws.length := List.length_pos.2 hdr
    have hne : ((draws.length : ℚ)) ≠ 0 := Nat.cast_ne_zero.2 (by omega)
    rw [div_self hne]

/-- C9 witness at `(4, 4, 2)` with draws `[0, 1, 2, 3]`. -/
theorem C9_filling_witness :
    (fillingCounts (cartesianTraj 4 4 2 3000) 4 [0, 1, 2, 3]).sum = 4 ∧
    (fillingOf (cartesianTraj 4 4 2 3000) 4 [0, 1, 2, 3]).sum = 1 := by
  have hex : ∃ m, m ≤ 3000 ∧
      (((4 : ℕ) : ℤ) - ((4 : ℕ) : ℤ)) < sumRound (gaussDensity 4 2) (incrAt m) := by
    simpa using gauss_exit_4_2
  have h := C9_filling (by norm_num) (by decide) (by norm_num) (by norm_num) hex
    [0, 1, 2, 3] (by decide) (by decide)
  exact ⟨h.2.1, h.2.2.2⟩

/-- C10: the trimming loop terminates — fuel beyond `(sum − E)⁺` is
irrelevant, so at most sum-many productive iterations occur; each
productive iteration zeroes one entry equal to 1, lowering the sum by
exactly 1; starting at or above the surplus the final sum never drops
below it, and any exit with sum ≠ surplus is the safety break, with no
entry equal to 1 remaining. -/
theorem C10_trim_termination (df : List ℤ) (E : ℤ) (pm : Bool)
    (h0 : ∀ x ∈ df, 0 ≤ x) :
    ((1 : ℤ) ∈ df →
      (zeroFirstOne df).sum = df.sum - 1 ∧ (zeroLastOne df).sum = df.sum - 1) ∧
    (∀ fuel, (df.sum - E).toNat ≤ fuel →
      trimAux fuel df pm E = trimAux (df.sum - E).toNat df pm E) ∧
    (E ≤ df.sum →
      E ≤ (trimRepeats df E).sum ∧
      ((trimRepeats df E).sum ≠ E → (1 : ℤ) ∉ trimRepeats df E)) := by
  refine ⟨fun h1 => ⟨zeroFirstOne_sum h1, zeroLastOne_sum h1⟩,
    fun fuel hf => trimAux_fuel_irrelevant E fuel df pm hf, fun hE => ?_⟩
  obtain ⟨_, _, c3, c4, _⟩ := trimRepeats_spec h0 hE
  exact ⟨c3, c4⟩

/-- C10 witness on the vector `[2, 1, 1]` with surplus 1. -/
theorem C10_trim_termination_witness :
    trimAux 5 [2, 1, 1] true 1 =
      trimAux ((([2, 1, 1] : List ℤ).sum - 1).toNat) [2, 1, 1] true 1 ∧
    (1 : ℤ) ≤ (trimRepeats [2, 1, 1] 1).sum := by
  have h := C10_trim_termination [2, 1, 1] 1 true (by decide)
  exact ⟨h.2.1 5 (by decide), (h.2.2 (by decide)).1⟩

/-- C8 (counterexample): with exactly two origin visits, pruning leaves a
single origin sample — the pruned output does not acquire the origin more
than once. -/
theorem C8_prune_counterexample :
    ¬ (1 < (pruneOrigin [((0, 0) : ℤ × ℤ), (1, 0), (0, 0)]).count (0, 0)) := by
  decide

/-- C8 (amended): origin pruning deletes exactly the 1st, 3rd, 5th, …
origin occurrences: the result is a subsequence of the input, non-origin
entries are unchanged and in order, the origin count halves (rounded
down), and the pruned output still acquires the origin more than once
exactly when the origin was visited at least four times. -/
theorem C8_prune_amended (l : List (ℤ × ℤ)) :
    (pruneOrigin l).Sublist l ∧
    (pruneOrigin l).filter (fun p => p ≠ (0, 0)) =
      l.filter (fun p => p ≠ (0, 0)) ∧
    (pruneOrigin l).count (0, 0) = l.count (0, 0) / 2 ∧
    (4 ≤ l.count (0, 0) → 1 < (pruneOrigin l).count (0, 0)) := by
  refine ⟨pruneOriginAux_sublist l 0, pruneOriginAux_filter_ne l 0,
    pruneOrigin_count l, fun h4 => ?_⟩
  rw [pruneOrigin_count]
  omega

/-- C8 witness: four origin visits leave two. -/
theorem C8_prune_amended_witness :
    1 < (pruneOrigin [((0, 0) : ℤ × ℤ), (0, 0), (0, 0), (0, 0)]).count (0, 0) :=
  (C8_prune_amended [((0, 0) : ℤ × ℤ), (0, 0), (0, 0), (0, 0)]).2.2.2 (by decide)

end Retrospective
